import Mathlib

/-!
# Verification of the session directory cache (`src/session/cache-manager.ts`)

This file gives a shallow embedding, in Lean 4, of the session-directory
cache of the opencode-telegram-bot repository and proves the specified
properties about it.

Modelling conventions:

* JavaScript numbers that hold millisecond timestamps are modelled as `Int`
  (the code only compares, subtracts and maxes them).
* `process.platform === "win32"` is threaded through as an explicit
  `win32 : Bool` parameter; `String.prototype.toLowerCase` is modelled by
  `jsToLower` and `String.prototype.trim` by `jsTrim`, both written as
  structural recursion over the character list so they reduce in the kernel.
* `Array.prototype.sort` with the comparator
  `(a, b) => b.lastUpdated - a.lastUpdated` is a stable sort under a
  consistent comparator, so its result is uniquely determined; we model it
  with `List.insertionSort` ordered by `lastUpdatedGE`, which is stable and
  produces the same (non-strictly descending) order.
* The module-level mutable state (`cacheData`, `syncInFlight`,
  `lastSyncAttemptAt`) is passed explicitly; `async` control flow is
  modelled by functions that describe one call of the corresponding
  JavaScript function run to its settlement.
-/

/-- Embeds interface `CachedSessionDirectory`: one cached worktree entry. -/
structure CachedSessionDirectory where
  worktree : String
  lastUpdated : Int
deriving Repr, DecidableEq

/-- Embeds interface `SessionDirectoryCacheData`: the persisted snapshot. -/
structure SessionDirectoryCacheData where
  version : Nat
  lastSyncedUpdatedAt : Int
  directories : List CachedSessionDirectory
deriving Repr, DecidableEq

def CACHE_VERSION : Nat := 1
def INITIAL_WARMUP_LIMIT : Int := 1000
def INCREMENTAL_SYNC_LIMIT : Int := 1000
def MAX_CACHED_DIRECTORIES : Nat := 10
def SYNC_SAFETY_WINDOW_MS : Int := 60000
def SYNC_COOLDOWN_MS : Int := 60000

/-- Embeds `createEmptyCacheData()`. -/
def createEmptyCacheData : SessionDirectoryCacheData :=
  { version := CACHE_VERSION, lastSyncedUpdatedAt := 0, directories := [] }

/-- Models `String.prototype.trim()`: drop leading and trailing whitespace.
Written over the character list so that it reduces in the kernel. -/
def jsTrim (s : String) : String :=
  String.mk (((s.data.dropWhile Char.isWhitespace).reverse.dropWhile
    Char.isWhitespace).reverse)

/-- Models `String.prototype.toLowerCase()` over the character list. -/
def jsToLower (s : String) : String :=
  String.mk (s.data.map Char.toLower)

/-- Embeds `worktreeKey(worktree)`: identity key of a worktree, case-folded
on win32. -/
def worktreeKey (win32 : Bool) (worktree : String) : String :=
  if win32 then jsToLower worktree else worktree

/-- Embeds `isValidWorktree(worktree)`. -/
def isValidWorktree (worktree : String) : Bool :=
  let trimmed := jsTrim worktree
  decide (trimmed.length > 0) && trimmed != "/"

/-- One iteration of the dedupe loop of `dedupeAndTrimDirectories`: look the
key up in the insertion-ordered map and `set` it when absent or strictly
older.  JavaScript `Map.set` on an existing key keeps its position. -/
def mapSet (key : String) (item : CachedSessionDirectory) :
    List (String × CachedSessionDirectory) → List (String × CachedSessionDirectory)
  | [] => [(key, item)]
  | (k, v) :: rest =>
    if k = key then
      (if v.lastUpdated < item.lastUpdated then (k, item) else (k, v)) :: rest
    else
      (k, v) :: mapSet key item rest

/-- The `unique` map built by the loop in `dedupeAndTrimDirectories`. -/
def dedupeMap (win32 : Bool) (dirs : List CachedSessionDirectory) :
    List (String × CachedSessionDirectory) :=
  dirs.foldl (fun unique item => mapSet (worktreeKey win32 item.worktree) item unique) []

/-- The sort order of `dedupeAndTrimDirectories`: comparator
`(a, b) => b.lastUpdated - a.lastUpdated`, i.e. non-strictly descending. -/
def lastUpdatedGE (a b : CachedSessionDirectory) : Prop :=
  b.lastUpdated ≤ a.lastUpdated

instance : DecidableRel lastUpdatedGE :=
  fun a b => inferInstanceAs (Decidable (b.lastUpdated ≤ a.lastUpdated))

instance : IsTotal CachedSessionDirectory lastUpdatedGE :=
  ⟨fun a b => le_total b.lastUpdated a.lastUpdated⟩

instance : IsTrans CachedSessionDirectory lastUpdatedGE :=
  ⟨fun _ _ _ hab hbc => le_trans hbc hab⟩

/-- Embeds `dedupeAndTrimDirectories(data)` (acting on the directory list):
dedupe by identity key keeping the newest, sort descending by
`lastUpdated` (stable), and cap at `MAX_CACHED_DIRECTORIES`. -/
def dedupeAndTrimDirectories (win32 : Bool) (dirs : List CachedSessionDirectory) :
    List CachedSessionDirectory :=
  (List.insertionSort lastUpdatedGE ((dedupeMap win32 dirs).map Prod.snd)).take
    MAX_CACHED_DIRECTORIES

/-- Embeds the `findIndex` + update part of `upsertDirectory`: find the first
entry whose key matches.  Returns `none` when no entry matches; otherwise
returns `(false, unchanged list)` when the existing entry is at least as
new (`existing.lastUpdated >= lastUpdated`), or `(true, updated list)` with
that entry's `lastUpdated` replaced (keeping its stored `worktree`). -/
def updateExistingDirectory (win32 : Bool) (key : String) (lastUpdated : Int) :
    List CachedSessionDirectory → Option (Bool × List CachedSessionDirectory)
  | [] => none
  | item :: rest =>
    if worktreeKey win32 item.worktree = key then
      if lastUpdated ≤ item.lastUpdated then
        some (false, item :: rest)
      else
        some (true, { worktree := item.worktree, lastUpdated := lastUpdated } :: rest)
    else
      match updateExistingDirectory win32 key lastUpdated rest with
      | some (changed, rest2) => some (changed, item :: rest2)
      | none => none

/-- Embeds `upsertDirectory(worktree, lastUpdated)` acting on the directory
list; returns the boolean result together with the new list. -/
def upsertDirectory (win32 : Bool) (worktree : String) (lastUpdated : Int)
    (dirs : List CachedSessionDirectory) : Bool × List CachedSessionDirectory :=
  if !isValidWorktree worktree then
    (false, dirs)
  else
    let normalizedWorktree := jsTrim worktree
    let key := worktreeKey win32 normalizedWorktree
    match updateExistingDirectory win32 key lastUpdated dirs with
    | some (false, _) => (false, dirs)
    | some (true, dirs2) => (true, dedupeAndTrimDirectories win32 dirs2)
    | none =>
      (true, dedupeAndTrimDirectories win32
        (dirs ++ [{ worktree := normalizedWorktree, lastUpdated := lastUpdated }]))

/-- The parameter object returned by `buildListParams()`. -/
structure ListParams where
  limit : Int
  start : Option Int
deriving Repr, DecidableEq

/-- Embeds `buildListParams()`. -/
def buildListParams (data : SessionDirectoryCacheData) : ListParams :=
  let hasWatermark := decide (data.lastSyncedUpdatedAt > 0)
  if !hasWatermark then
    { limit := INITIAL_WARMUP_LIMIT, start := none }
  else
    { limit := INCREMENTAL_SYNC_LIMIT,
      start := some (max 0 (data.lastSyncedUpdatedAt - SYNC_SAFETY_WINDOW_MS)) }

example :
    upsertDirectory false "a" 5 [] = (true, [{ worktree := "a", lastUpdated := 5 }]) := by
  decide

example :
    (upsertDirectory false "a" 4
      [{ worktree := "b", lastUpdated := 9 }, { worktree := "a", lastUpdated := 5 }]).1
      = false := by
  decide

/-- A session record as consumed by `runSync`: only the fields the loop
reads (`session.directory`, `session.time?.updated`). -/
structure SessionRecord where
  directory : String
  timeUpdated : Option Int
deriving Repr, DecidableEq

/-- `session.time?.updated ?? Date.now()` for a record, with `now` the value
`Date.now()` would return. -/
def sessionUpdatedAt (now : Int) (session : SessionRecord) : Int :=
  session.timeUpdated.getD now

/-- One iteration of the `for (const session of sessions)` loop in `runSync`,
acting on the accumulator (directories, `maxUpdated`, `changed`). -/
def runSyncStep (win32 : Bool) (now : Int)
    (acc : List CachedSessionDirectory × Int × Bool) (session : SessionRecord) :
    List CachedSessionDirectory × Int × Bool :=
  let updatedAt := sessionUpdatedAt now session
  let (didChange, dirs2) := upsertDirectory win32 session.directory updatedAt acc.1
  (dirs2, if updatedAt > acc.2.1 then updatedAt else acc.2.1, acc.2.2 || didChange)

/-- Embeds the state update of `runSync` once the remote call has succeeded
with the list `sessions`: merge every record and advance the watermark to
the final `maxUpdated`. -/
def runSyncData (win32 : Bool) (now : Int) (sessions : List SessionRecord)
    (data : SessionDirectoryCacheData) : SessionDirectoryCacheData :=
  let acc := sessions.foldl (runSyncStep win32 now)
    (data.directories, data.lastSyncedUpdatedAt, false)
  { data with directories := acc.1, lastSyncedUpdatedAt := acc.2.1 }

/-- One iteration of the row loop shared by `ingestFromSqliteSessionDatabase`
(rows already mapped to `worktree`/`lastUpdated` by
`querySessionDirectoriesFromSqlite`). -/
def ingestRowStep (win32 : Bool)
    (acc : List CachedSessionDirectory × Int × Bool) (row : CachedSessionDirectory) :
    List CachedSessionDirectory × Int × Bool :=
  let (didChange, dirs2) := upsertDirectory win32 row.worktree row.lastUpdated acc.1
  (dirs2, if row.lastUpdated > acc.2.1 then row.lastUpdated else acc.2.1, acc.2.2 || didChange)

/-- Embeds the state update performed by `ingestFromSqliteSessionDatabase`
for the first database that yields a non-empty row list. -/
def ingestSqliteData (win32 : Bool) (rows : List CachedSessionDirectory)
    (data : SessionDirectoryCacheData) : SessionDirectoryCacheData :=
  let acc := rows.foldl (ingestRowStep win32) (data.directories, data.lastSyncedUpdatedAt, false)
  { data with directories := acc.1, lastSyncedUpdatedAt := acc.2.1 }

/-- One parsed session file in the `ingestFromGlobalSessionStorage` scan:
`directory` is `none` when the JSON has no such field, and the file's
`mtimeMs` (already truncated to an integer) backs a missing
`time.updated`. -/
structure StorageSessionFile where
  directory : Option String
  timeUpdated : Option Int
  mtimeMs : Int
deriving Repr, DecidableEq

/-- One iteration of the file loop in `ingestFromGlobalSessionStorage`:
skip files whose `directory` is falsy (`undefined` or the empty string),
otherwise upsert with `session.time?.updated ?? Math.trunc(file.mtimeMs)`. -/
def storageFileStep (win32 : Bool)
    (acc : List CachedSessionDirectory × Int × Bool) (file : StorageSessionFile) :
    List CachedSessionDirectory × Int × Bool :=
  match file.directory with
  | none => acc
  | some d =>
    if d = "" then acc
    else
      let updated := file.timeUpdated.getD file.mtimeMs
      let (didChange, dirs2) := upsertDirectory win32 d updated acc.1
      (dirs2, if updated > acc.2.1 then updated else acc.2.1, acc.2.2 || didChange)

/-- Embeds the state update performed by `ingestFromGlobalSessionStorage`
for the first storage root that can be scanned. -/
def ingestStorageData (win32 : Bool) (files : List StorageSessionFile)
    (data : SessionDirectoryCacheData) : SessionDirectoryCacheData :=
  let acc := files.foldl (storageFileStep win32)
    (data.directories, data.lastSyncedUpdatedAt, false)
  { data with directories := acc.1, lastSyncedUpdatedAt := acc.2.1 }

/-- Embeds the exported `upsertSessionDirectory(worktree, lastUpdated)`:
a single-entry upsert that advances the watermark only when the upsert
changed the directory list and the timestamp is ahead of the watermark. -/
def upsertSessionDirectoryData (win32 : Bool) (worktree : String) (lastUpdated : Int)
    (data : SessionDirectoryCacheData) : SessionDirectoryCacheData :=
  let (changed, dirs) := upsertDirectory win32 worktree lastUpdated data.directories
  if !changed then data
  else
    { data with
      directories := dirs,
      lastSyncedUpdatedAt :=
        if lastUpdated > data.lastSyncedUpdatedAt then lastUpdated
        else data.lastSyncedUpdatedAt }

/-- One cache-mutating operation, as observed at the
`SessionDirectoryCacheData` level: a successful primary sync, a public
single-entry upsert, or one of the two fallback ingestions. -/
inductive CacheOp where
  | sync (now : Int) (sessions : List SessionRecord)
  | upsert (worktree : String) (lastUpdated : Int)
  | sqliteIngest (rows : List CachedSessionDirectory)
  | storageIngest (files : List StorageSessionFile)
deriving Repr, DecidableEq

/-- Apply one `CacheOp` to a snapshot. -/
def applyOp (win32 : Bool) : CacheOp → SessionDirectoryCacheData → SessionDirectoryCacheData
  | .sync now sessions, data => runSyncData win32 now sessions data
  | .upsert worktree lastUpdated, data => upsertSessionDirectoryData win32 worktree lastUpdated data
  | .sqliteIngest rows, data => ingestSqliteData win32 rows data
  | .storageIngest files, data => ingestStorageData win32 files data

/-- Apply a whole sequence of `upsertDirectory` calls (as performed against
the module-level `cacheData.directories`), left to right. -/
def applyUpserts (win32 : Bool) (ops : List (String × Int))
    (dirs : List CachedSessionDirectory) : List CachedSessionDirectory :=
  ops.foldl (fun d op => (upsertDirectory win32 op.1 op.2 d).2) dirs

/-- The synchronous module state read and written by the body of
`syncSessionDirectoryCache` before any `await` on the sync itself:
`syncInFlight` holds the identity of the pending promise (if any),
`lastSyncAttemptAt` the cooldown timestamp, and `nextOpId` supplies a fresh
identity for a newly created sync promise. -/
structure SyncModuleState where
  syncInFlight : Option Nat
  lastSyncAttemptAt : Int
  nextOpId : Nat
deriving Repr, DecidableEq

/-- What the synchronous prefix of one `syncSessionDirectoryCache` call does:
return early under the cooldown, join the pending promise, or start a new
`runSync` (which immediately issues the one remote `session.list` call). -/
inductive SyncStartResult where
  | cooldownSkip
  | joinInFlight (opId : Nat)
  | started (opId : Nat)
deriving Repr, DecidableEq

/-- Embeds the synchronous body of `syncSessionDirectoryCache(options)` (the
cache is assumed loaded): the cooldown check, the single-flight check, and
the creation of a new in-flight sync. -/
def syncStart (force : Bool) (now : Int) (st : SyncModuleState) :
    SyncStartResult × SyncModuleState :=
  if !force && decide (now - st.lastSyncAttemptAt < SYNC_COOLDOWN_MS) then
    (.cooldownSkip, st)
  else
    match st.syncInFlight with
    | some opId => (.joinInFlight opId, st)
    | none =>
      (.started st.nextOpId,
        { st with syncInFlight := some st.nextOpId, nextOpId := st.nextOpId + 1 })

/-- Number of remote `session.list` calls a start result causes: only a
freshly `started` sync runs `runSync` and hence issues a request. -/
def remoteCallsIssued : SyncStartResult → Nat
  | .started _ => 1
  | _ => 0

/-- Outcome of the remote `opencodeClient.session.list(params)` call as seen
by `runSync`: `failure` covers both a truthy `error` and missing `data`
(`runSync` throws in either case). -/
inductive SessionListResult where
  | failure
  | success (sessions : List SessionRecord)
deriving Repr, DecidableEq

/-- Everything observable from one `syncSessionDirectoryCache` call that ran
to settlement without a concurrent in-flight sync: whether a remote call
was made, whether the promise returned to the caller rejected, whether the
failure handler logged, and the final module data/cooldown state. -/
structure SyncCallOutcome where
  remoteCallMade : Bool
  promiseRejected : Bool
  errorLogged : Bool
  data : SessionDirectoryCacheData
  lastSyncAttemptAt : Int
deriving Repr, DecidableEq

/-- Embeds one complete `syncSessionDirectoryCache(options)` call, from entry
to the settlement of the promise it returns, for a call that finds
`syncInFlight === null` (the joined-promise path is covered by
`syncStart`).  `now` is the clock at the cooldown check, `settleNow` the
clock when the chained `.then` handler records the attempt time.  The
`.catch` handler swallows any `runSync` rejection — it logs and resets
`lastSyncAttemptAt` to 0 — so the returned promise always fulfils. -/
def syncCallSettled (win32 : Bool) (force : Bool) (now settleNow : Int)
    (api : SessionListResult) (data : SessionDirectoryCacheData)
    (lastSyncAttemptAt : Int) : SyncCallOutcome :=
  if !force && decide (now - lastSyncAttemptAt < SYNC_COOLDOWN_MS) then
    { remoteCallMade := false, promiseRejected := false, errorLogged := false,
      data := data, lastSyncAttemptAt := lastSyncAttemptAt }
  else
    match api with
    | .failure =>
      { remoteCallMade := true, promiseRejected := false, errorLogged := true,
        data := data, lastSyncAttemptAt := 0 }
    | .success sessions =>
      { remoteCallMade := true, promiseRejected := false, errorLogged := false,
        data := runSyncData win32 now sessions data, lastSyncAttemptAt := settleNow }

/-- A JavaScript value as far as `normalizeCacheData` can observe one.
`jnum finite v` carries whether the number is finite and its integral
value; `NaN` is represented as `jnum false 0` (falsy, non-finite) and
`±Infinity` as `jnum false v` with `v ≠ 0` (truthy, non-finite). -/
inductive JsValue where
  | jundefined
  | jnull
  | jbool (b : Bool)
  | jnum (finite : Bool) (v : Int)
  | jstr (s : String)
  | jarr (items : List JsValue)
  | jobj (fields : List (String × JsValue))

/-- JavaScript truthiness of a `JsValue`. -/
def JsValue.isTruthy : JsValue → Bool
  | .jundefined => false
  | .jnull => false
  | .jbool b => b
  | .jnum _ v => v != 0
  | .jstr s => s != ""
  | .jarr _ => true
  | .jobj _ => true

/-- Whether `typeof value === "object"` (true for `null`, arrays, objects). -/
def JsValue.isObjectType : JsValue → Bool
  | .jnull => true
  | .jarr _ => true
  | .jobj _ => true
  | _ => false

/-- Property access `value[name]` for the property names the normalizer
reads: defined fields of plain objects, `undefined` everywhere else. -/
def JsValue.getField : JsValue → String → JsValue
  | .jobj fields, name =>
    match fields.find? (fun f => f.1 = name) with
    | some f => f.2
    | none => .jundefined
  | _, _ => .jundefined

/-- The type guard of the `filter` in `normalizeCacheData`: a truthy object
whose `worktree` is a string and whose `lastUpdated` is a number. -/
def directoryItemTyped (item : JsValue) : Bool :=
  item.isTruthy && item.isObjectType &&
    (match item.getField "worktree" with | .jstr _ => true | _ => false) &&
    (match item.getField "lastUpdated" with | .jnum _ _ => true | _ => false)

/-- The `map` in `normalizeCacheData`: trim the worktree and keep the
numeric `lastUpdated` value.  Only applied to items passing
`directoryItemTyped`, so the default branches are never reached. -/
def directoryItemExtract (item : JsValue) : CachedSessionDirectory :=
  { worktree := jsTrim (match item.getField "worktree" with | .jstr s => s | _ => ""),
    lastUpdated := match item.getField "lastUpdated" with | .jnum _ v => v | _ => 0 }

/-- Embeds `normalizeCacheData(raw)`. -/
def normalizeCacheData (win32 : Bool) (raw : JsValue) : SessionDirectoryCacheData :=
  if !raw.isTruthy || !raw.isObjectType then
    createEmptyCacheData
  else
    let lastSyncedUpdatedAt :=
      match raw.getField "lastSyncedUpdatedAt" with
      | .jnum true v => v
      | _ => 0
    let directories :=
      match raw.getField "directories" with
      | .jarr items =>
        ((items.filter directoryItemTyped).map directoryItemExtract).filter
          (fun item => isValidWorktree item.worktree)
      | _ => []
    { version := CACHE_VERSION,
      lastSyncedUpdatedAt := lastSyncedUpdatedAt,
      directories := dedupeAndTrimDirectories win32 directories }

/-- The identity key of a cached entry. -/
def keyOf (win32 : Bool) (item : CachedSessionDirectory) : String :=
  worktreeKey win32 item.worktree

/-- The identity keys of a directory list, in order. -/
def dirKeys (win32 : Bool) (dirs : List CachedSessionDirectory) : List String :=
  dirs.map (keyOf win32)

/-- The normal form of a directory list: at most `MAX_CACHED_DIRECTORIES`
entries, non-strictly descending `lastUpdated`, and pairwise distinct
identity keys. -/
def NormalizedDirs (win32 : Bool) (dirs : List CachedSessionDirectory) : Prop :=
  dirs.length ≤ MAX_CACHED_DIRECTORIES ∧
    List.Sorted lastUpdatedGE dirs ∧ (dirKeys win32 dirs).Nodup

instance (win32 : Bool) (dirs : List CachedSessionDirectory) :
    Decidable (NormalizedDirs win32 dirs) :=
  inferInstanceAs (Decidable (_ ∧ _ ∧ _))

/-- The timestamps that a sequence of `upsertDirectory` calls submits for the
identity key `k` (invalid worktrees are silent no-ops and contribute
nothing). -/
def upsertTimestampsFor (win32 : Bool) (k : String) (ops : List (String × Int)) : List Int :=
  (ops.filter
    (fun op => isValidWorktree op.1 && (worktreeKey win32 (jsTrim op.1) == k))).map Prod.snd

/-- Invariant tying the directory list to the multiset `ts` of timestamps
submitted so far for the identity key `k`: while `k` is cached its stored
`lastUpdated` is the maximum submitted timestamp, and when `k` has been
submitted but is not cached the list is full and everything cached is at
least as new as every submission for `k`. -/
def KeyInv (win32 : Bool) (k : String) (ts : List Int)
    (dirs : List CachedSessionDirectory) : Prop :=
  (ts = [] → ∀ e ∈ dirs, keyOf win32 e ≠ k) ∧
    (∀ e ∈ dirs, keyOf win32 e = k → e.lastUpdated ∈ ts ∧ ∀ t ∈ ts, t ≤ e.lastUpdated) ∧
    (ts ≠ [] → (∀ e ∈ dirs, keyOf win32 e ≠ k) →
      dirs.length = MAX_CACHED_DIRECTORIES ∧ ∀ e ∈ dirs, ∀ t ∈ ts, t ≤ e.lastUpdated)

/-- A full cache of ten distinct directories, all newer than timestamp 1;
used to exhibit the eviction edge case of `upsertDirectory`. -/
def dirsFull : List CachedSessionDirectory :=
  [{ worktree := "/w0", lastUpdated := 20 }, { worktree := "/w1", lastUpdated := 19 },
    { worktree := "/w2", lastUpdated := 18 }, { worktree := "/w3", lastUpdated := 17 },
    { worktree := "/w4", lastUpdated := 16 }, { worktree := "/w5", lastUpdated := 15 },
    { worktree := "/w6", lastUpdated := 14 }, { worktree := "/w7", lastUpdated := 13 },
    { worktree := "/w8", lastUpdated := 12 }, { worktree := "/w9", lastUpdated := 11 }]

example : buildListParams { version := 1, lastSyncedUpdatedAt := 1, directories := [] }
    = { limit := 1000, start := some 0 } := by decide

/-- **C1** (counterexample): a forced `sync` whose remote session-list call
fails does not reject the promise returned to its direct caller — at this
concrete input the call makes its remote request yet settles fulfilled. -/
theorem forced_sync_failure_cex :
    (syncCallSettled false true 0 0 .failure createEmptyCacheData 0).remoteCallMade = true ∧
      (syncCallSettled false true 0 0 .failure createEmptyCacheData 0).promiseRejected
        = false := by
  decide

/-- **C1** (amended): for every forced `sync` whose remote session-list call
fails, the rejection of `runSync` is caught inside the chained handlers:
the promise returned to the direct caller fulfils (never rejects), the
error is logged, the cooldown timestamp is reset to 0 and the cache data
is left unchanged. -/
theorem forced_sync_failure_swallowed (win32 : Bool) (now settleNow : Int)
    (data : SessionDirectoryCacheData) (last : Int) :
    syncCallSettled win32 true now settleNow .failure data last =
      { remoteCallMade := true, promiseRejected := false, errorLogged := true,
        data := data, lastSyncAttemptAt := 0 } := rfl

/-- **C2** (counterexample): after a failed non-forced sync the cooldown
timestamp is 0, not the current time, and a second non-forced call one
millisecond later does issue a new remote call. -/
theorem nonforced_sync_failure_cex :
    (syncCallSettled false false 100000 100000 .failure createEmptyCacheData 0).lastSyncAttemptAt
        = 0 ∧ (0 : Int) ≠ 100000 ∧
      (syncCallSettled false false 100001 100001 .failure createEmptyCacheData
          (syncCallSettled false false 100000 100000 .failure createEmptyCacheData
            0).lastSyncAttemptAt).remoteCallMade = true := by
  decide

/-- **C2** (amended): a failed non-forced sync is caught and logged and its
promise fulfils, but the cooldown timestamp is reset to 0 (not updated to
the current time), so any subsequent non-forced call whose clock is at
least the cooldown width issues a new remote call. -/
theorem nonforced_sync_failure_resets_cooldown (win32 : Bool) (now settleNow : Int)
    (data : SessionDirectoryCacheData) (last : Int)
    (h : SYNC_COOLDOWN_MS ≤ now - last) :
    syncCallSettled win32 false now settleNow .failure data last =
        { remoteCallMade := true, promiseRejected := false, errorLogged := true,
          data := data, lastSyncAttemptAt := 0 } ∧
      ∀ now2 settleNow2 : Int, ∀ api : SessionListResult, SYNC_COOLDOWN_MS ≤ now2 →
        (syncCallSettled win32 false now2 settleNow2 api data 0).remoteCallMade = true := by
  constructor
  · have hlt : ¬ (now - last < SYNC_COOLDOWN_MS) := not_lt.mpr h
    simp [syncCallSettled, hlt]
  · intro now2 settleNow2 api h2
    have hlt : ¬ (now2 < SYNC_COOLDOWN_MS) := by omega
    cases api <;> simp [syncCallSettled, hlt]

/-- Closed witness for `nonforced_sync_failure_resets_cooldown`. -/
theorem nonforced_sync_failure_resets_cooldown_witness :
    syncCallSettled false false 60000 61000 .failure createEmptyCacheData 0 =
      { remoteCallMade := true, promiseRejected := false, errorLogged := true,
        data := createEmptyCacheData, lastSyncAttemptAt := 0 } :=
  (nonforced_sync_failure_resets_cooldown false 60000 61000 createEmptyCacheData 0
    (by decide)).1

/-- **C9**: single-flight — if a non-forced `sync` call started a new sync
operation `p`, then a second non-forced call issued at any later clock,
before `p` resolves, joins the very same pending operation and issues no
remote request: together the two calls issue exactly one remote call. -/
theorem sync_single_flight (now1 now2 : Int) (st st1 : SyncModuleState) (p : Nat)
    (hle : now1 ≤ now2) (h : syncStart false now1 st = (.started p, st1)) :
    syncStart false now2 st1 = (.joinInFlight p, st1) ∧
      remoteCallsIssued (syncStart false now1 st).1 +
        remoteCallsIssued (syncStart false now2 st1).1 = 1 := by
  have h1 : syncStart false now2 st1 = (.joinInFlight p, st1) := by
    unfold syncStart at h
    by_cases hc : now1 - st.lastSyncAttemptAt < SYNC_COOLDOWN_MS
    · simp [hc] at h
    · simp [hc] at h
      cases hfl : st.syncInFlight with
      | some q => rw [hfl] at h; simp at h
      | none =>
        rw [hfl] at h
        simp at h
        obtain ⟨hp, hst⟩ := h
        have hlast : st1.lastSyncAttemptAt = st.lastSyncAttemptAt := by rw [← hst]
        have hfl1 : st1.syncInFlight = some p := by rw [← hst, hp]
        have hcool2 : ¬ (now2 - st1.lastSyncAttemptAt < SYNC_COOLDOWN_MS) := by
          rw [hlast]; omega
        unfold syncStart
        rw [hfl1]
        simp [hcool2]
  refine ⟨h1, ?_⟩
  rw [h, h1]
  rfl

/-- Closed witness for `sync_single_flight`. -/
theorem sync_single_flight_witness :
    syncStart false 60001 { syncInFlight := some 0, lastSyncAttemptAt := 0, nextOpId := 1 }
        = (.joinInFlight 0,
          { syncInFlight := some 0, lastSyncAttemptAt := 0, nextOpId := 1 }) ∧
      remoteCallsIssued (syncStart false 60000
          { syncInFlight := none, lastSyncAttemptAt := 0, nextOpId := 0 }).1 +
        remoteCallsIssued (syncStart false 60001
          { syncInFlight := some 0, lastSyncAttemptAt := 0, nextOpId := 1 }).1 = 1 :=
  sync_single_flight 60000 60001
    { syncInFlight := none, lastSyncAttemptAt := 0, nextOpId := 0 }
    { syncInFlight := some 0, lastSyncAttemptAt := 0, nextOpId := 1 } 0
    (by decide) (by decide)

/-- **C7** (counterexample): with the positive watermark 1 the built start
filter is the clamped `some 0`, not `watermark - 60000 = -59999`. -/
theorem buildListParams_cex :
    (buildListParams { version := 1, lastSyncedUpdatedAt := 1, directories := [] }).start
        = some 0 ∧ (0 : Int) ≠ 1 - 60000 := by
  decide

/-- **C7** (amended): a zero watermark yields `{limit := 1000}` with no
start filter; a positive watermark yields `{limit := 1000,
start := max 0 (watermark - 60000)}` — the 60-second safety window,
clamped at zero. -/
theorem buildListParams_spec (data : SessionDirectoryCacheData) :
    (data.lastSyncedUpdatedAt = 0 →
      buildListParams data = { limit := 1000, start := none }) ∧
    (0 < data.lastSyncedUpdatedAt →
      buildListParams data =
        { limit := 1000,
          start := some (max 0 (data.lastSyncedUpdatedAt - 60000)) }) := by
  constructor
  · intro h
    simp [buildListParams, h, INITIAL_WARMUP_LIMIT]
  · intro h
    simp [buildListParams, h, INCREMENTAL_SYNC_LIMIT, SYNC_SAFETY_WINDOW_MS]

/-- **C3** (counterexample): with ten cached entries all newer than the
incoming timestamp, upserting a fresh key returns `true` although the
snapshot after the call equals the snapshot before it — the fresh entry is
evicted by the cap at once. -/
theorem upsert_changed_flag_cex :
    (upsertDirectory false "/z" 1 dirsFull).1 = true ∧
      (upsertDirectory false "/z" 1 dirsFull).2 = dirsFull := by
  decide

/-- **C3** (amended): a `false` return guarantees the in-memory snapshot is
unchanged (equivalently, any change returns `true`); a `true` return may
still leave the snapshot unchanged in the eviction edge case exhibited by
the counterexample. -/
theorem upsert_false_means_unchanged (win32 : Bool) (w : String) (t : Int)
    (dirs : List CachedSessionDirectory)
    (h : (upsertDirectory win32 w t dirs).1 = false) :
    (upsertDirectory win32 w t dirs).2 = dirs := by
  unfold upsertDirectory at h ⊢
  by_cases hv : isValidWorktree w
  · simp only [hv, Bool.not_true, Bool.false_eq_true, if_false] at h ⊢
    cases hu : updateExistingDirectory win32 (worktreeKey win32 (jsTrim w)) t dirs with
    | none => rw [hu] at h; simp at h
    | some pr =>
      match pr with
      | (false, l) => rfl
      | (true, l) => rw [hu] at h; simp at h
  · simp [hv]

/-- Closed witness for `upsert_false_means_unchanged`. -/
theorem upsert_false_means_unchanged_witness :
    (upsertDirectory false "/a" 4 [{ worktree := "/a", lastUpdated := 5 }]).2
      = [{ worktree := "/a", lastUpdated := 5 }] :=
  upsert_false_means_unchanged false "/a" 4 [{ worktree := "/a", lastUpdated := 5 }]
    (by decide)

/-- Closed witness for `buildListParams_spec`. -/
theorem buildListParams_spec_witness :
    buildListParams { version := 1, lastSyncedUpdatedAt := 0, directories := [] }
        = { limit := 1000, start := none } ∧
      buildListParams { version := 1, lastSyncedUpdatedAt := 70000, directories := [] }
        = { limit := 1000, start := some (max 0 (70000 - 60000)) } :=
  ⟨(buildListParams_spec _).1 rfl, (buildListParams_spec _).2 (by norm_num)⟩

/-- The running `maxUpdated` of any of the ingestion folds never decreases
along the fold, provided each step keeps it non-decreasing. -/
theorem foldl_acc_max_mono {α : Type}
    (step : (List CachedSessionDirectory × Int × Bool) → α →
      (List CachedSessionDirectory × Int × Bool))
    (hstep : ∀ acc x, acc.2.1 ≤ (step acc x).2.1)
    (xs : List α) (acc : List CachedSessionDirectory × Int × Bool) :
    acc.2.1 ≤ (xs.foldl step acc).2.1 := by
  induction xs generalizing acc with
  | nil => exact le_refl _
  | cons x xs ih => exact le_trans (hstep acc x) (ih _)

/-- One `runSync` loop iteration keeps `maxUpdated` non-decreasing. -/
theorem runSyncStep_max_mono (win32 : Bool) (now : Int)
    (acc : List CachedSessionDirectory × Int × Bool) (s : SessionRecord) :
    acc.2.1 ≤ (runSyncStep win32 now acc s).2.1 := by
  unfold runSyncStep
  dsimp only
  split <;> omega

/-- One sqlite row iteration keeps `maxUpdated` non-decreasing. -/
theorem ingestRowStep_max_mono (win32 : Bool)
    (acc : List CachedSessionDirectory × Int × Bool) (row : CachedSessionDirectory) :
    acc.2.1 ≤ (ingestRowStep win32 acc row).2.1 := by
  unfold ingestRowStep
  dsimp only
  split <;> omega

/-- One storage-scan file iteration keeps `maxUpdated` non-decreasing. -/
theorem storageFileStep_max_mono (win32 : Bool)
    (acc : List CachedSessionDirectory × Int × Bool) (file : StorageSessionFile) :
    acc.2.1 ≤ (storageFileStep win32 acc file).2.1 := by
  unfold storageFileStep
  cases file.directory with
  | none => exact le_refl _
  | some d =>
    dsimp only
    split
    · exact le_refl _
    · dsimp only
      split <;> omega

/-- Every single cache operation keeps the watermark non-decreasing. -/
theorem applyOp_watermark_mono (win32 : Bool) (op : CacheOp)
    (data : SessionDirectoryCacheData) :
    data.lastSyncedUpdatedAt ≤ (applyOp win32 op data).lastSyncedUpdatedAt := by
  cases op with
  | sync now sessions =>
    exact foldl_acc_max_mono _ (runSyncStep_max_mono win32 now) sessions
      (data.directories, data.lastSyncedUpdatedAt, false)
  | upsert w t =>
    show data.lastSyncedUpdatedAt ≤
      (upsertSessionDirectoryData win32 w t data).lastSyncedUpdatedAt
    unfold upsertSessionDirectoryData
    cases hu : upsertDirectory win32 w t data.directories with
    | mk changed dirs =>
      cases changed
      · exact le_refl _
      · show data.lastSyncedUpdatedAt ≤
          (if t > data.lastSyncedUpdatedAt then t else data.lastSyncedUpdatedAt)
        split <;> omega
  | sqliteIngest rows =>
    exact foldl_acc_max_mono _ (ingestRowStep_max_mono win32) rows
      (data.directories, data.lastSyncedUpdatedAt, false)
  | storageIngest files =>
    exact foldl_acc_max_mono _ (storageFileStep_max_mono win32) files
      (data.directories, data.lastSyncedUpdatedAt, false)

/-- **C5**: the watermark `lastSyncedUpdatedAt` is monotonically
non-decreasing: every operation (successful sync, public upsert, sqlite
fallback, storage-scan fallback) leaves it greater than or equal to its
previous value, and hence so does every finite sequence of such
operations. -/
theorem watermark_monotone (win32 : Bool) (op : CacheOp)
    (data : SessionDirectoryCacheData) :
    data.lastSyncedUpdatedAt ≤ (applyOp win32 op data).lastSyncedUpdatedAt ∧
      ∀ ops : List CacheOp,
        data.lastSyncedUpdatedAt ≤
          (ops.foldl (fun d o => applyOp win32 o d) data).lastSyncedUpdatedAt := by
  refine ⟨applyOp_watermark_mono win32 op data, ?_⟩
  intro ops
  induction ops generalizing data with
  | nil => exact le_refl _
  | cons o ops ih => exact le_trans (applyOp_watermark_mono win32 o data) (ih _)

/-- The `maxUpdated` component of the `runSync` fold ignores the directory
and `changed` components: it is the plain running maximum of the resolved
record timestamps. -/
theorem runSync_fold_max (win32 : Bool) (now : Int) (sessions : List SessionRecord)
    (dirs : List CachedSessionDirectory) (m : Int) (c : Bool) :
    (sessions.foldl (runSyncStep win32 now) (dirs, m, c)).2.1 =
      sessions.foldl
        (fun acc s => if sessionUpdatedAt now s > acc then sessionUpdatedAt now s else acc)
        m := by
  induction sessions generalizing dirs m c with
  | nil => rfl
  | cons s ss ih =>
    show (ss.foldl (runSyncStep win32 now) (runSyncStep win32 now (dirs, m, c) s)).2.1 = _
    unfold runSyncStep
    dsimp only
    exact ih _ _ _

/-- Likewise for the sqlite-fallback row fold. -/
theorem ingest_fold_max (win32 : Bool) (rows : List CachedSessionDirectory)
    (dirs : List CachedSessionDirectory) (m : Int) (c : Bool) :
    (rows.foldl (ingestRowStep win32) (dirs, m, c)).2.1 =
      rows.foldl (fun acc r => if r.lastUpdated > acc then r.lastUpdated else acc) m := by
  induction rows generalizing dirs m c with
  | nil => rfl
  | cons r rs ih =>
    show (rs.foldl (ingestRowStep win32) (ingestRowStep win32 (dirs, m, c) r)).2.1 = _
    unfold ingestRowStep
    dsimp only
    exact ih _ _ _

/-- The running maximum bounds its seed and every element it saw. -/
theorem foldl_fmax_spec {α : Type} (f : α → Int) (xs : List α) (m : Int) :
    m ≤ xs.foldl (fun acc x => if f x > acc then f x else acc) m ∧
      ∀ x ∈ xs, f x ≤ xs.foldl (fun acc x => if f x > acc then f x else acc) m := by
  induction xs generalizing m with
  | nil => simp
  | cons x xs ih =>
    have hstep : m ≤ (if f x > m then f x else m) := by split <;> omega
    have hx : f x ≤ (if f x > m then f x else m) := by split <;> omega
    refine ⟨le_trans hstep (ih _).1, ?_⟩
    intro y hy
    rcases List.mem_cons.mp hy with rfl | hy
    · exact le_trans hx (ih _).1
    · exact (ih _).2 y hy

/-- **C10**: during a sync or sqlite-fallback batch, the watermark is
advanced past every observed record timestamp — even for records whose
upsert was a no-op (invalid directory or stale timestamp) — whereas the
public single-entry `upsertSessionDirectory` leaves both the snapshot and
the watermark untouched whenever the underlying upsert did not change the
directory list, in particular for invalid worktrees. -/
theorem watermark_batch_vs_single (win32 : Bool) (data : SessionDirectoryCacheData) :
    (∀ now : Int, ∀ sessions : List SessionRecord, ∀ s ∈ sessions,
        sessionUpdatedAt now s ≤ (runSyncData win32 now sessions data).lastSyncedUpdatedAt) ∧
      (∀ rows : List CachedSessionDirectory, ∀ r ∈ rows,
        r.lastUpdated ≤ (ingestSqliteData win32 rows data).lastSyncedUpdatedAt) ∧
      (∀ w : String, ∀ t : Int, (upsertDirectory win32 w t data.directories).1 = false →
        upsertSessionDirectoryData win32 w t data = data) ∧
      (∀ w : String, ∀ t : Int, isValidWorktree w = false →
        upsertSessionDirectoryData win32 w t data = data) := by
  have hnoop : ∀ w : String, ∀ t : Int,
      (upsertDirectory win32 w t data.directories).1 = false →
      upsertSessionDirectoryData win32 w t data = data := by
    intro w t h
    unfold upsertSessionDirectoryData
    cases hu : upsertDirectory win32 w t data.directories with
    | mk changed dirs =>
      rw [hu] at h
      cases changed
      · rfl
      · simp at h
  refine ⟨?_, ?_, hnoop, ?_⟩
  · intro now sessions s hs
    show sessionUpdatedAt now s ≤
      (sessions.foldl (runSyncStep win32 now)
        (data.directories, data.lastSyncedUpdatedAt, false)).2.1
    rw [runSync_fold_max]
    exact (foldl_fmax_spec (sessionUpdatedAt now) sessions data.lastSyncedUpdatedAt).2 s hs
  · intro rows r hr
    show r.lastUpdated ≤
      (rows.foldl (ingestRowStep win32)
        (data.directories, data.lastSyncedUpdatedAt, false)).2.1
    rw [ingest_fold_max]
    exact (foldl_fmax_spec CachedSessionDirectory.lastUpdated rows
      data.lastSyncedUpdatedAt).2 r hr
  · intro w t hw
    apply hnoop
    unfold upsertDirectory
    simp [hw]

/-- Closed witness for `watermark_batch_vs_single`: a record with a blank
(invalid) directory still advances the sync watermark to its timestamp,
while the same blank directory as a direct upsert is a complete no-op. -/
theorem watermark_batch_vs_single_witness :
    (99 : Int) ≤ (runSyncData false 0 [{ directory := " ", timeUpdated := some 99 }]
        createEmptyCacheData).lastSyncedUpdatedAt ∧
      upsertSessionDirectoryData false " " 99 createEmptyCacheData = createEmptyCacheData := by
  constructor
  · exact (watermark_batch_vs_single false createEmptyCacheData).1 0
      [{ directory := " ", timeUpdated := some 99 }]
      { directory := " ", timeUpdated := some 99 } (by simp)
  · exact (watermark_batch_vs_single false createEmptyCacheData).2.2.2 " " 99 (by decide)

/-- `mapSet` leaves the key sequence unchanged when the key is present, and
appends it otherwise. -/
theorem mapSet_fst (k : String) (v : CachedSessionDirectory)
    (m : List (String × CachedSessionDirectory)) :
    (mapSet k v m).map Prod.fst =
      if k ∈ m.map Prod.fst then m.map Prod.fst else m.map Prod.fst ++ [k] := by
  induction m with
  | nil => simp [mapSet]
  | cons p m ih =>
    obtain ⟨k', v'⟩ := p
    unfold mapSet
    by_cases hk : k' = k
    · subst hk
      rw [if_pos rfl]
      have hmem : k' ∈ List.map Prod.fst ((k', v') :: m) := by simp
      rw [if_pos hmem]
      rcases lt_or_le v'.lastUpdated v.lastUpdated with hlt | hle
      · rw [if_pos hlt]; rfl
      · rw [if_neg (not_lt.mpr hle)]
    · rw [if_neg hk]
      by_cases hmem : k ∈ List.map Prod.fst m
      · have hmem2 : k ∈ List.map Prod.fst ((k', v') :: m) := by simp [hmem]
        rw [if_pos hmem2]
        simp only [List.map_cons]
        rw [ih, if_pos hmem]
      · have hmem2 : k ∉ List.map Prod.fst ((k', v') :: m) := by
          simp only [List.map_cons, List.mem_cons]
          rintro (rfl | hc)
          · exact hk rfl
          · exact hmem hc
        rw [if_neg hmem2]
        simp only [List.map_cons]
        rw [ih, if_neg hmem]
        rfl

/-- `mapSet` preserves distinctness of the keys. -/
theorem mapSet_fst_nodup (k : String) (v : CachedSessionDirectory)
    (m : List (String × CachedSessionDirectory)) (hm : (m.map Prod.fst).Nodup) :
    ((mapSet k v m).map Prod.fst).Nodup := by
  rw [mapSet_fst]
  by_cases hmem : k ∈ m.map Prod.fst
  · simpa [hmem] using hm
  · rw [if_neg hmem]
    refine List.nodup_append.mpr ⟨hm, List.nodup_singleton k, ?_⟩
    intro a ha hb
    rw [List.mem_singleton] at hb
    subst hb
    exact hmem ha

/-- Every pair in the map built by the dedupe loop keys its value. -/
theorem mapSet_consistent (win32 : Bool) (k : String) (v : CachedSessionDirectory)
    (m : List (String × CachedSessionDirectory))
    (hk : k = worktreeKey win32 v.worktree)
    (hm : ∀ p ∈ m, p.1 = worktreeKey win32 p.2.worktree) :
    ∀ p ∈ mapSet k v m, p.1 = worktreeKey win32 p.2.worktree := by
  induction m with
  | nil =>
    intro p hp
    rw [mapSet, List.mem_singleton] at hp
    subst hp
    exact hk
  | cons q m ih =>
    obtain ⟨k', v'⟩ := q
    intro p hp
    unfold mapSet at hp
    by_cases hkk : k' = k
    · rw [if_pos hkk] at hp
      rcases List.mem_cons.mp hp with rfl | hpm
      · split
        · rw [hkk, hk]
        · exact hm _ (List.mem_cons_self _ _)
      · exact hm p (List.mem_cons_of_mem _ hpm)
    · rw [if_neg hkk] at hp
      rcases List.mem_cons.mp hp with rfl | hpm
      · exact hm _ (List.mem_cons_self _ _)
      · exact ih (fun q hq => hm q (List.mem_cons_of_mem _ hq)) p hpm

/-- Every value in the map after a `mapSet` is the set value or an old one. -/
theorem mapSet_snd_mem (k : String) (v : CachedSessionDirectory)
    (m : List (String × CachedSessionDirectory)) :
    ∀ p ∈ mapSet k v m, p.2 = v ∨ p ∈ m := by
  induction m with
  | nil =>
    intro p hp
    rw [mapSet, List.mem_singleton] at hp
    subst hp
    exact Or.inl rfl
  | cons q m ih =>
    obtain ⟨k', v'⟩ := q
    intro p hp
    unfold mapSet at hp
    by_cases hkk : k' = k
    · rw [if_pos hkk] at hp
      rcases List.mem_cons.mp hp with rfl | hpm
      · split
        · exact Or.inl rfl
        · exact Or.inr (List.mem_cons_self _ _)
      · exact Or.inr (List.mem_cons_of_mem _ hpm)
    · rw [if_neg hkk] at hp
      rcases List.mem_cons.mp hp with rfl | hpm
      · exact Or.inr (List.mem_cons_self _ _)
      · rcases ih p hpm with h | h
        · exact Or.inl h
        · exact Or.inr (List.mem_cons_of_mem _ h)

/-- The keys of `dedupeMap` are distinct. -/
theorem dedupeMap_fst_nodup (win32 : Bool) (dirs : List CachedSessionDirectory) :
    ((dedupeMap win32 dirs).map Prod.fst).Nodup := by
  suffices h : ∀ m : List (String × CachedSessionDirectory), (m.map Prod.fst).Nodup →
      ((dirs.foldl (fun u item => mapSet (worktreeKey win32 item.worktree) item u) m).map
        Prod.fst).Nodup from
    h [] (by simp)
  induction dirs with
  | nil => intro m hm; exact hm
  | cons d dirs ih => intro m hm; exact ih _ (mapSet_fst_nodup _ _ _ hm)

/-- Every pair of `dedupeMap` keys its value. -/
theorem dedupeMap_consistent (win32 : Bool) (dirs : List CachedSessionDirectory) :
    ∀ p ∈ dedupeMap win32 dirs, p.1 = worktreeKey win32 p.2.worktree := by
  suffices h : ∀ m : List (String × CachedSessionDirectory),
      (∀ p ∈ m, p.1 = worktreeKey win32 p.2.worktree) →
      ∀ p ∈ dirs.foldl (fun u item => mapSet (worktreeKey win32 item.worktree) item u) m,
        p.1 = worktreeKey win32 p.2.worktree from
    h [] (by simp)
  induction dirs with
  | nil => intro m hm; exact hm
  | cons d dirs ih => intro m hm; exact ih _ (mapSet_consistent win32 _ d m rfl hm)

/-- Every value of `dedupeMap` comes from the input list. -/
theorem dedupeMap_snd_subset (win32 : Bool) (dirs : List CachedSessionDirectory) :
    ∀ p ∈ dedupeMap win32 dirs, p.2 ∈ dirs := by
  suffices h : ∀ m : List (String × CachedSessionDirectory),
      ∀ p ∈ dirs.foldl (fun u item => mapSet (worktreeKey win32 item.worktree) item u) m,
        p.2 ∈ dirs ∨ p ∈ m by
    intro p hp
    rcases h [] p hp with hmem | hmem
    · exact hmem
    · simp at hmem
  induction dirs with
  | nil =>
    intro m p hp
    exact Or.inr hp
  | cons d dirs ih =>
    intro m p hp
    rcases ih _ p hp with hmem | hmem
    · exact Or.inl (List.mem_cons_of_mem _ hmem)
    · rcases mapSet_snd_mem _ _ _ p hmem with h2 | h2
      · exact Or.inl (h2 ▸ (List.mem_cons_self _ _))
      · exact Or.inr h2

/-- The keys of the deduped values equal the map keys. -/
theorem dedupeMap_snd_keys (win32 : Bool) (dirs : List CachedSessionDirectory) :
    ((dedupeMap win32 dirs).map Prod.snd).map (keyOf win32)
      = (dedupeMap win32 dirs).map Prod.fst := by
  rw [List.map_map]
  exact List.map_congr_left fun p hp => (dedupeMap_consistent win32 dirs p hp).symm

/-- The output of `dedupeAndTrimDirectories` is always in normal form, for
every input list. -/
theorem dedupe_normalized (win32 : Bool) (dirs : List CachedSessionDirectory) :
    NormalizedDirs win32 (dedupeAndTrimDirectories win32 dirs) := by
  unfold dedupeAndTrimDirectories NormalizedDirs
  refine ⟨?_, ?_, ?_⟩
  · rw [List.length_take]
    exact min_le_left _ _
  · exact List.Pairwise.sublist (List.take_sublist _ _)
      (List.sorted_insertionSort lastUpdatedGE _)
  · have hvals : (((dedupeMap win32 dirs).map Prod.snd).map (keyOf win32)).Nodup := by
      rw [dedupeMap_snd_keys]
      exact dedupeMap_fst_nodup win32 dirs
    have hsorted :
        ((List.insertionSort lastUpdatedGE ((dedupeMap win32 dirs).map Prod.snd)).map
          (keyOf win32)).Nodup :=
      ((List.perm_insertionSort lastUpdatedGE _).map (keyOf win32)).symm.nodup hvals
    show ((List.insertionSort lastUpdatedGE
      ((dedupeMap win32 dirs).map Prod.snd)).take MAX_CACHED_DIRECTORIES).map
        (keyOf win32) |>.Nodup
    rw [List.map_take]
    exact List.Nodup.sublist (List.take_sublist _ _) hsorted

/-- Every entry kept by `dedupeAndTrimDirectories` comes from its input. -/
theorem dedupe_mem_subset (win32 : Bool) (dirs : List CachedSessionDirectory) :
    ∀ e ∈ dedupeAndTrimDirectories win32 dirs, e ∈ dirs := by
  intro e he
  unfold dedupeAndTrimDirectories at he
  have hsort := (List.take_sublist _ _).mem he
  rw [List.mem_insertionSort] at hsort
  obtain ⟨p, hp, rfl⟩ := List.mem_map.mp hsort
  exact dedupeMap_snd_subset win32 dirs p hp

/-- `upsertDirectory` keeps the directory list in normal form. -/
theorem upsertDirectory_normalized (win32 : Bool) (w : String) (t : Int)
    (dirs : List CachedSessionDirectory) (h : NormalizedDirs win32 dirs) :
    NormalizedDirs win32 (upsertDirectory win32 w t dirs).2 := by
  unfold upsertDirectory
  by_cases hv : isValidWorktree w
  · simp only [hv, Bool.not_true, Bool.false_eq_true, if_false]
    cases hu : updateExistingDirectory win32 (worktreeKey win32 (jsTrim w)) t dirs with
    | none => exact dedupe_normalized win32 _
    | some pr =>
      match pr with
      | (false, l) => exact h
      | (true, l) => exact dedupe_normalized win32 _
  · simp only [hv, Bool.not_false, if_true]
    exact h

/-- **C4** (counterexample): two upserts with equal timestamps leave the
list sorted only non-strictly — adjacent entries share `lastUpdated = 5`,
so the claimed strict descent fails. -/
theorem strict_descending_cex :
    applyUpserts false [("/a", 5), ("/b", 5)] []
        = [{ worktree := "/a", lastUpdated := 5 }, { worktree := "/b", lastUpdated := 5 }] ∧
      ¬ List.Pairwise (fun a b : CachedSessionDirectory => b.lastUpdated < a.lastUpdated)
        (applyUpserts false [("/a", 5), ("/b", 5)] []) := by
  decide

/-- **C4** (amended): after any finite sequence of upserts starting from a
normalized snapshot, the directory list has at most 10 entries, is sorted
non-strictly descending by `lastUpdated` (ties between distinct keys are
possible, as the counterexample shows), and no two entries share an
identity key. -/
theorem applyUpserts_normalized (win32 : Bool) (ops : List (String × Int))
    (dirs : List CachedSessionDirectory) (h : NormalizedDirs win32 dirs) :
    NormalizedDirs win32 (applyUpserts win32 ops dirs) := by
  induction ops generalizing dirs with
  | nil => exact h
  | cons op ops ih =>
    exact ih _ (upsertDirectory_normalized win32 op.1 op.2 dirs h)

/-- Closed witness for `applyUpserts_normalized`. -/
theorem applyUpserts_normalized_witness :
    NormalizedDirs false
      (applyUpserts false [("/a", 5), ("/b", 7), ("/a", 9)] []) :=
  applyUpserts_normalized false [("/a", 5), ("/b", 7), ("/a", 9)] [] (by decide)

/-- `mapSet` keeps every pair of the map; only the first pair with the set
key may change, never decreasing its stored `lastUpdated`. -/
theorem mapSet_value_mono (k : String) (v : CachedSessionDirectory) :
    ∀ (m : List (String × CachedSessionDirectory)), ∀ q ∈ m,
      ∃ q' ∈ mapSet k v m, q'.1 = q.1 ∧ q.2.lastUpdated ≤ q'.2.lastUpdated := by
  intro m
  induction m with
  | nil => intro q hq; cases hq
  | cons p m ih =>
    intro q hq
    obtain ⟨k', v'⟩ := p
    unfold mapSet
    by_cases hkk : k' = k
    · rw [if_pos hkk]
      rcases List.mem_cons.mp hq with rfl | hq2
      · rcases lt_or_le v'.lastUpdated v.lastUpdated with hlt | hle
        · rw [if_pos hlt]
          exact ⟨(k', v), List.mem_cons_self _ _, rfl, le_of_lt hlt⟩
        · rw [if_neg (not_lt.mpr hle)]
          exact ⟨(k', v'), List.mem_cons_self _ _, rfl, le_refl _⟩
      · exact ⟨q, List.mem_cons_of_mem _ hq2, rfl, le_refl _⟩
    · rw [if_neg hkk]
      rcases List.mem_cons.mp hq with rfl | hq2
      · exact ⟨(k', v'), List.mem_cons_self _ _, rfl, le_refl _⟩
      · obtain ⟨q', hq', h1, h2⟩ := ih q hq2
        exact ⟨q', List.mem_cons_of_mem _ hq', h1, h2⟩

/-- After a `mapSet`, some pair carries the set key and a value at least
as new as the set value. -/
theorem mapSet_mem_key (k : String) (v : CachedSessionDirectory)
    (m : List (String × CachedSessionDirectory)) :
    ∃ q ∈ mapSet k v m, q.1 = k ∧ v.lastUpdated ≤ q.2.lastUpdated := by
  induction m with
  | nil => exact ⟨(k, v), List.mem_cons_self _ _, rfl, le_refl _⟩
  | cons p m ih =>
    obtain ⟨k', v'⟩ := p
    unfold mapSet
    by_cases hkk : k' = k
    · rw [if_pos hkk]
      rcases lt_or_le v'.lastUpdated v.lastUpdated with hlt | hle
      · rw [if_pos hlt]
        exact ⟨(k', v), List.mem_cons_self _ _, hkk, le_refl _⟩
      · rw [if_neg (not_lt.mpr hle)]
        exact ⟨(k', v'), List.mem_cons_self _ _, hkk, hle⟩
    · rw [if_neg hkk]
      obtain ⟨q, hq, hq1, hq2⟩ := ih
      exact ⟨q, List.mem_cons_of_mem _ hq, hq1, hq2⟩

/-- The dedupe loop never loses a key and never decreases its value. -/
theorem foldl_mapSet_value_mono (win32 : Bool) :
    ∀ (l : List CachedSessionDirectory) (m : List (String × CachedSessionDirectory)),
      ∀ q ∈ m,
        ∃ p ∈ l.foldl (fun u item => mapSet (worktreeKey win32 item.worktree) item u) m,
          p.1 = q.1 ∧ q.2.lastUpdated ≤ p.2.lastUpdated := by
  intro l
  induction l with
  | nil => intro m q hq; exact ⟨q, hq, rfl, le_refl _⟩
  | cons d rest ih =>
    intro m q hq
    obtain ⟨q', hq', h1, h2⟩ := mapSet_value_mono (worktreeKey win32 d.worktree) d m q hq
    obtain ⟨p, hp, h3, h4⟩ := ih (mapSet (worktreeKey win32 d.worktree) d m) q' hq'
    exact ⟨p, hp, h3.trans h1, le_trans h2 h4⟩

/-- The dedupe loop keeps the keys distinct, from any admissible start. -/
theorem foldl_mapSet_fst_nodup (win32 : Bool) :
    ∀ (l : List CachedSessionDirectory) (m : List (String × CachedSessionDirectory)),
      (m.map Prod.fst).Nodup →
      ((l.foldl (fun u item => mapSet (worktreeKey win32 item.worktree) item u) m).map
        Prod.fst).Nodup := by
  intro l
  induction l with
  | nil => intro m hm; exact hm
  | cons d rest ih => intro m hm; exact ih _ (mapSet_fst_nodup _ _ _ hm)

/-- Every pair of `dedupeMap` dominates all input entries sharing its key:
the dedupe keeps the maximum `lastUpdated` per identity key. -/
theorem dedupeMap_max (win32 : Bool) (dirs : List CachedSessionDirectory) :
    ∀ p ∈ dedupeMap win32 dirs, ∀ c ∈ dirs,
      worktreeKey win32 c.worktree = p.1 → c.lastUpdated ≤ p.2.lastUpdated := by
  suffices hgen : ∀ (l : List CachedSessionDirectory)
      (m : List (String × CachedSessionDirectory)), (m.map Prod.fst).Nodup →
      ∀ p ∈ l.foldl (fun u item => mapSet (worktreeKey win32 item.worktree) item u) m,
        ∀ c ∈ l, worktreeKey win32 c.worktree = p.1 →
          c.lastUpdated ≤ p.2.lastUpdated by
    intro p hp c hc hk
    exact hgen dirs [] (by simp) p hp c hc hk
  intro l
  induction l with
  | nil => intro m _ p _ c hc _; cases hc
  | cons d rest ih =>
    intro m hm p hp c hc hk
    have hm2 : ((mapSet (worktreeKey win32 d.worktree) d m).map Prod.fst).Nodup :=
      mapSet_fst_nodup _ _ _ hm
    rcases List.mem_cons.mp hc with rfl | hc2
    · obtain ⟨q, hq, hq1, hq2⟩ := mapSet_mem_key (worktreeKey win32 c.worktree) c m
      obtain ⟨p', hp', hp1, hp2⟩ := foldl_mapSet_value_mono win32 rest _ q hq
      have hkeys := foldl_mapSet_fst_nodup win32 rest _ hm2
      have hpp : p = p' :=
        List.inj_on_of_nodup_map hkeys hp hp' (by rw [hp1, hq1, ← hk])
      rw [hpp]
      exact le_trans hq2 hp2
    · exact ih _ hm2 p hp c hc2 hk

/-- `dedupeAndTrimDirectories` keeps, for each surviving entry, the maximum
`lastUpdated` among all input entries with its identity key. -/
theorem dedupe_max (win32 : Bool) (l : List CachedSessionDirectory) :
    ∀ e ∈ dedupeAndTrimDirectories win32 l, ∀ c ∈ l,
      worktreeKey win32 c.worktree = keyOf win32 e →
        c.lastUpdated ≤ e.lastUpdated := by
  intro e he c hc hk
  unfold dedupeAndTrimDirectories at he
  have hsort := (List.take_sublist _ _).mem he
  rw [List.mem_insertionSort] at hsort
  obtain ⟨p, hp, hpe⟩ := List.mem_map.mp hsort
  have hp1 : p.1 = keyOf win32 e := by
    have h := dedupeMap_consistent win32 l p hp
    rw [hpe] at h
    exact h
  exact hpe ▸ dedupeMap_max win32 l p hp c hc (hk.trans hp1.symm)

/-- **C8**: loading normalizes any persisted value — a falsy or non-object
blob yields the empty snapshot; a missing, non-numeric or non-finite
watermark is coerced to 0; every surviving directory entry is valid
(trimmed, non-blank, non-root) and originates from a well-typed item of
the stored `directories` array; the surviving list is deduplicated by
identity key keeping the maximum `lastUpdated` per key (every valid
well-typed candidate sharing a survivor's key is dominated by that
survivor), sorted descending and capped at 10. -/
theorem normalizeCacheData_spec (win32 : Bool) (raw : JsValue) :
    ((raw.isTruthy = false ∨ raw.isObjectType = false) →
        normalizeCacheData win32 raw = createEmptyCacheData) ∧
      ((∀ v : Int, raw.getField "lastSyncedUpdatedAt" ≠ .jnum true v) →
        (normalizeCacheData win32 raw).lastSyncedUpdatedAt = 0) ∧
      (∀ e ∈ (normalizeCacheData win32 raw).directories,
        isValidWorktree e.worktree = true) ∧
      (∀ e ∈ (normalizeCacheData win32 raw).directories, ∃ items : List JsValue,
        ∃ item ∈ items, raw.getField "directories" = .jarr items ∧
          directoryItemTyped item = true ∧ e = directoryItemExtract item) ∧
      NormalizedDirs win32 (normalizeCacheData win32 raw).directories ∧
      (∀ e ∈ (normalizeCacheData win32 raw).directories,
        ∀ items : List JsValue, raw.getField "directories" = .jarr items →
        ∀ item ∈ items, directoryItemTyped item = true →
        isValidWorktree (directoryItemExtract item).worktree = true →
        keyOf win32 (directoryItemExtract item) = keyOf win32 e →
        (directoryItemExtract item).lastUpdated ≤ e.lastUpdated) := by
  by_cases hobj : (!raw.isTruthy || !raw.isObjectType) = true
  · have hempty : normalizeCacheData win32 raw = createEmptyCacheData := by
      unfold normalizeCacheData
      rw [if_pos hobj]
    refine ⟨fun _ => hempty, ?_, ?_, ?_, ?_, ?_⟩
    · rw [hempty]; exact fun _ => rfl
    · rw [hempty]; intro e he; cases he
    · rw [hempty]; intro e he; cases he
    · rw [hempty]
      show NormalizedDirs win32 []
      exact ⟨by simp [MAX_CACHED_DIRECTORIES], List.sorted_nil, List.nodup_nil⟩
    · rw [hempty]; intro e he; cases he
  · have hnorm : normalizeCacheData win32 raw =
        { version := CACHE_VERSION,
          lastSyncedUpdatedAt :=
            match raw.getField "lastSyncedUpdatedAt" with
            | .jnum true v => v
            | _ => 0,
          directories := dedupeAndTrimDirectories win32
            (match raw.getField "directories" with
             | .jarr items =>
               ((items.filter directoryItemTyped).map directoryItemExtract).filter
                 (fun item => isValidWorktree item.worktree)
             | _ => []) } := by
      unfold normalizeCacheData
      rw [if_neg hobj]
    have hobj2 : raw.isTruthy = true ∧ raw.isObjectType = true := by
      cases ht : raw.isTruthy <;> cases ho : raw.isObjectType <;>
        simp [ht, ho] at hobj ⊢
    refine ⟨?_, ?_, ?_, ?_, ?_, ?_⟩
    · intro h
      rcases h with h | h
      · rw [hobj2.1] at h; cases h
      · rw [hobj2.2] at h; cases h
    · intro hnum
      rw [hnorm]
      show (match raw.getField "lastSyncedUpdatedAt" with
        | .jnum true v => v
        | _ => (0 : Int)) = (0 : Int)
      cases hf : raw.getField "lastSyncedUpdatedAt" with
      | jnum fin v =>
        cases fin
        · rfl
        · exact absurd hf (hnum v)
      | jundefined => rfl
      | jnull => rfl
      | jbool b => rfl
      | jstr s => rfl
      | jarr items => rfl
      | jobj fields => rfl
    · intro e he
      rw [hnorm] at he
      replace he : e ∈ dedupeAndTrimDirectories win32
          (match raw.getField "directories" with
           | .jarr items =>
             ((items.filter directoryItemTyped).map directoryItemExtract).filter
               (fun item => isValidWorktree item.worktree)
           | _ => []) := he
      cases hf : raw.getField "directories" with
      | jarr items =>
        rw [hf] at he
        exact (List.mem_filter.mp (dedupe_mem_subset win32 _ e he)).2
      | jundefined => rw [hf] at he; cases he
      | jnull => rw [hf] at he; cases he
      | jbool b => rw [hf] at he; cases he
      | jnum fin v => rw [hf] at he; cases he
      | jstr s => rw [hf] at he; cases he
      | jobj fields => rw [hf] at he; cases he
    · intro e he
      rw [hnorm] at he
      replace he : e ∈ dedupeAndTrimDirectories win32
          (match raw.getField "directories" with
           | .jarr items =>
             ((items.filter directoryItemTyped).map directoryItemExtract).filter
               (fun item => isValidWorktree item.worktree)
           | _ => []) := he
      cases hf : raw.getField "directories" with
      | jarr items =>
        rw [hf] at he
        have hin := (List.mem_filter.mp (dedupe_mem_subset win32 _ e he)).1
        obtain ⟨item, hitem, rfl⟩ := List.mem_map.mp hin
        obtain ⟨hmem, htyped⟩ := List.mem_filter.mp hitem
        exact ⟨items, item, hmem, rfl, htyped, rfl⟩
      | jundefined => rw [hf] at he; cases he
      | jnull => rw [hf] at he; cases he
      | jbool b => rw [hf] at he; cases he
      | jnum fin v => rw [hf] at he; cases he
      | jstr s => rw [hf] at he; cases he
      | jobj fields => rw [hf] at he; cases he
    · rw [hnorm]
      exact dedupe_normalized win32 _
    · intro e he items hitems item hitem htyped hvalid hkey
      rw [hnorm] at he
      replace he : e ∈ dedupeAndTrimDirectories win32
          (match raw.getField "directories" with
           | .jarr items =>
             ((items.filter directoryItemTyped).map directoryItemExtract).filter
               (fun it => isValidWorktree it.worktree)
           | _ => []) := he
      rw [hitems] at he
      have hcand : directoryItemExtract item ∈
          ((items.filter directoryItemTyped).map directoryItemExtract).filter
            (fun it => isValidWorktree it.worktree) :=
        List.mem_filter.mpr
          ⟨List.mem_map_of_mem _ (List.mem_filter.mpr ⟨hitem, htyped⟩), hvalid⟩
      exact dedupe_max win32
        (((items.filter directoryItemTyped).map directoryItemExtract).filter
          (fun it => isValidWorktree it.worktree)) e he
        (directoryItemExtract item) hcand hkey

/-- Closed witness for `normalizeCacheData_spec`: a non-object blob heals
to the empty snapshot, a non-numeric watermark is coerced to 0, and a
stored key collision keeps the maximum `lastUpdated` — the surviving
`/a` entry (timestamp 9) dominates the colliding candidate with 5. -/
theorem normalizeCacheData_spec_witness :
    normalizeCacheData false (.jstr "corrupt") = createEmptyCacheData ∧
      (normalizeCacheData false
        (.jobj [("lastSyncedUpdatedAt", .jstr "bogus")])).lastSyncedUpdatedAt = 0 ∧
      (directoryItemExtract (.jobj [("worktree", .jstr "/a"),
          ("lastUpdated", .jnum true 5)])).lastUpdated
        ≤ ({ worktree := "/a", lastUpdated := 9 } : CachedSessionDirectory).lastUpdated :=
  ⟨(normalizeCacheData_spec false (.jstr "corrupt")).1 (Or.inr rfl),
    (normalizeCacheData_spec false
        (.jobj [("lastSyncedUpdatedAt", .jstr "bogus")])).2.1
      (fun _ h => JsValue.noConfusion h),
    (normalizeCacheData_spec false
        (.jobj [("directories", .jarr
          [.jobj [("worktree", .jstr "/a"), ("lastUpdated", .jnum true 5)],
            .jobj [("worktree", .jstr "/a"), ("lastUpdated", .jnum true 9)]])])).2.2.2.2.2
      { worktree := "/a", lastUpdated := 9 } (by decide)
      [.jobj [("worktree", .jstr "/a"), ("lastUpdated", .jnum true 5)],
        .jobj [("worktree", .jstr "/a"), ("lastUpdated", .jnum true 9)]] rfl
      (.jobj [("worktree", .jstr "/a"), ("lastUpdated", .jnum true 5)])
      (List.mem_cons_self _ _) (by decide) (by decide) (by decide)⟩

/-- `upsertDirectory` on an invalid worktree is a complete no-op. -/
theorem upsertDirectory_invalid (win32 : Bool) (w : String) (t : Int)
    (dirs : List CachedSessionDirectory) (hv : isValidWorktree w = false) :
    upsertDirectory win32 w t dirs = (false, dirs) := by
  unfold upsertDirectory
  rw [hv]
  rfl

/-- `upsertDirectory` when no entry matches the key: push and renormalize. -/
theorem upsertDirectory_new (win32 : Bool) (w : String) (t : Int)
    (dirs : List CachedSessionDirectory) (hv : isValidWorktree w = true)
    (hu : updateExistingDirectory win32 (worktreeKey win32 (jsTrim w)) t dirs = none) :
    upsertDirectory win32 w t dirs =
      (true, dedupeAndTrimDirectories win32
        (dirs ++ [{ worktree := jsTrim w, lastUpdated := t }])) := by
  unfold upsertDirectory
  rw [hv]
  simp only [Bool.not_true, Bool.false_eq_true, if_false]
  rw [hu]

/-- `upsertDirectory` when the matching entry is at least as new: no-op. -/
theorem upsertDirectory_stale (win32 : Bool) (w : String) (t : Int)
    (dirs l : List CachedSessionDirectory) (hv : isValidWorktree w = true)
    (hu : updateExistingDirectory win32 (worktreeKey win32 (jsTrim w)) t dirs
            = some (false, l)) :
    upsertDirectory win32 w t dirs = (false, dirs) := by
  unfold upsertDirectory
  rw [hv]
  simp only [Bool.not_true, Bool.false_eq_true, if_false]
  rw [hu]

/-- `upsertDirectory` when the matching entry is strictly older: replace and
renormalize. -/
theorem upsertDirectory_advance (win32 : Bool) (w : String) (t : Int)
    (dirs l : List CachedSessionDirectory) (hv : isValidWorktree w = true)
    (hu : updateExistingDirectory win32 (worktreeKey win32 (jsTrim w)) t dirs
            = some (true, l)) :
    upsertDirectory win32 w t dirs = (true, dedupeAndTrimDirectories win32 l) := by
  unfold upsertDirectory
  rw [hv]
  simp only [Bool.not_true, Bool.false_eq_true, if_false]
  rw [hu]

/-- `updateExistingDirectory` returns `none` exactly when no entry has the
key. -/
theorem update_none_iff (win32 : Bool) (key : String) (t : Int)
    (dirs : List CachedSessionDirectory) :
    updateExistingDirectory win32 key t dirs = none ↔
      ∀ e ∈ dirs, worktreeKey win32 e.worktree ≠ key := by
  induction dirs with
  | nil => simp [updateExistingDirectory]
  | cons d rest ih =>
    unfold updateExistingDirectory
    by_cases hd : worktreeKey win32 d.worktree = key
    · rw [if_pos hd]
      constructor
      · intro h
        exfalso
        by_cases hle : t ≤ d.lastUpdated
        · rw [if_pos hle] at h; cases h
        · rw [if_neg hle] at h; cases h
      · intro h
        exact absurd hd (h d (List.mem_cons_self _ _))
    · rw [if_neg hd]
      constructor
      · intro h e he
        rcases List.mem_cons.mp he with rfl | he2
        · exact hd
        · cases hrec : updateExistingDirectory win32 key t rest with
          | some pr =>
            rw [hrec] at h
            obtain ⟨b, l⟩ := pr
            cases h
          | none => exact (ih.mp hrec) e he2
      · intro h
        have hnone : updateExistingDirectory win32 key t rest = none :=
          ih.mpr fun e he => h e (List.mem_cons_of_mem _ he)
        rw [hnone]

/-- Characterization of a stale match: the list is returned unchanged and
some entry carries the key with an at-least-as-new timestamp. -/
theorem update_some_false_eq (win32 : Bool) (key : String) (t : Int)
    (dirs l : List CachedSessionDirectory)
    (hu : updateExistingDirectory win32 key t dirs = some (false, l)) :
    l = dirs ∧ ∃ e ∈ dirs, worktreeKey win32 e.worktree = key ∧ t ≤ e.lastUpdated := by
  induction dirs generalizing l with
  | nil => cases hu
  | cons d rest ih =>
    unfold updateExistingDirectory at hu
    by_cases hd : worktreeKey win32 d.worktree = key
    · rw [if_pos hd] at hu
      by_cases hle : t ≤ d.lastUpdated
      · rw [if_pos hle] at hu
        injection hu with h1
        injection h1 with _ hl
        exact ⟨hl.symm, d, List.mem_cons_self _ _, hd, hle⟩
      · rw [if_neg hle] at hu
        injection hu with h1
        injection h1 with hb _
        cases hb
    · rw [if_neg hd] at hu
      cases hrec : updateExistingDirectory win32 key t rest with
      | none => rw [hrec] at hu; cases hu
      | some pr =>
        obtain ⟨b, l2⟩ := pr
        rw [hrec] at hu
        injection hu with h1
        injection h1 with hb hl
        subst hb
        obtain ⟨hl2, e, he, hk, hle⟩ := ih l2 hrec
        refine ⟨?_, e, List.mem_cons_of_mem _ he, hk, hle⟩
        rw [← hl, hl2]

/-- Characterization of an advancing match: the first entry with the key is
strictly older and gets its timestamp replaced in place. -/
theorem update_some_true_eq (win32 : Bool) (key : String) (t : Int)
    (dirs l : List CachedSessionDirectory)
    (hu : updateExistingDirectory win32 key t dirs = some (true, l)) :
    ∃ l1 e l2, dirs = l1 ++ e :: l2 ∧ worktreeKey win32 e.worktree = key ∧
      e.lastUpdated < t ∧
      l = l1 ++ { worktree := e.worktree, lastUpdated := t } :: l2 := by
  induction dirs generalizing l with
  | nil => cases hu
  | cons d rest ih =>
    unfold updateExistingDirectory at hu
    by_cases hd : worktreeKey win32 d.worktree = key
    · rw [if_pos hd] at hu
      by_cases hle : t ≤ d.lastUpdated
      · rw [if_pos hle] at hu
        injection hu with h1
        injection h1 with hb _
        cases hb
      · rw [if_neg hle] at hu
        injection hu with h1
        injection h1 with _ hl
        exact ⟨[], d, rest, rfl, hd, not_le.mp hle, hl.symm⟩
    · rw [if_neg hd] at hu
      cases hrec : updateExistingDirectory win32 key t rest with
      | none => rw [hrec] at hu; cases hu
      | some pr =>
        obtain ⟨b, l2⟩ := pr
        rw [hrec] at hu
        injection hu with h1
        injection h1 with hb hl
        subst hb
        obtain ⟨l1, e, l3, hdirs, hk, hlt, hleq⟩ := ih l2 hrec
        refine ⟨d :: l1, e, l3, by rw [hdirs]; rfl, hk, hlt, ?_⟩
        rw [← hl, hleq]
        rfl

/-- `mapSet` with a fresh key appends the pair. -/
theorem mapSet_not_mem (k : String) (v : CachedSessionDirectory)
    (m : List (String × CachedSessionDirectory)) (hk : k ∉ m.map Prod.fst) :
    mapSet k v m = m ++ [(k, v)] := by
  induction m with
  | nil => rfl
  | cons p m ih =>
    obtain ⟨k', v'⟩ := p
    have hne : ¬ k' = k := fun h => hk (by simp [h])
    unfold mapSet
    rw [if_neg hne, ih (fun h => hk (by simp [h]))]
    rfl

/-- On a list with pairwise-distinct keys, the dedupe map is the identity
pairing. -/
theorem dedupeMap_nodup_id (win32 : Bool) (dirs : List CachedSessionDirectory)
    (h : (dirKeys win32 dirs).Nodup) :
    dedupeMap win32 dirs = dirs.map (fun d => (worktreeKey win32 d.worktree, d)) := by
  suffices hgen : ∀ l : List CachedSessionDirectory,
      ∀ m : List (String × CachedSessionDirectory),
      (∀ d ∈ l, worktreeKey win32 d.worktree ∉ m.map Prod.fst) →
      (dirKeys win32 l).Nodup →
      l.foldl (fun u item => mapSet (worktreeKey win32 item.worktree) item u) m
        = m ++ l.map (fun d => (worktreeKey win32 d.worktree, d)) by
    simpa using hgen dirs [] (by simp) h
  intro l
  induction l with
  | nil => intro m _ _; simp
  | cons d rest ih =>
    intro m hfresh hnd
    rw [dirKeys, List.map_cons, List.nodup_cons] at hnd
    show rest.foldl _ (mapSet (worktreeKey win32 d.worktree) d m) = _
    rw [mapSet_not_mem _ _ _ (hfresh d (List.mem_cons_self _ _))]
    rw [ih (m ++ [(worktreeKey win32 d.worktree, d)]) ?_ hnd.2]
    · simp
    · intro x hx
      rw [List.map_append]
      intro hmem
      rcases List.mem_append.mp hmem with h1 | h1
      · exact hfresh x (List.mem_cons_of_mem _ hx) h1
      · have hkx : keyOf win32 x = keyOf win32 d := by
          simpa using h1
        exact hnd.1 (hkx ▸ List.mem_map_of_mem (keyOf win32) hx)

/-- On a list with pairwise-distinct keys, dedupe reduces to the stable
descending sort followed by the cap. -/
theorem dedupe_eq_sortTake (win32 : Bool) (dirs : List CachedSessionDirectory)
    (h : (dirKeys win32 dirs).Nodup) :
    dedupeAndTrimDirectories win32 dirs =
      (List.insertionSort lastUpdatedGE dirs).take MAX_CACHED_DIRECTORIES := by
  unfold dedupeAndTrimDirectories
  rw [dedupeMap_nodup_id win32 dirs h, List.map_map]
  have : (Prod.snd ∘ fun d : CachedSessionDirectory =>
      (worktreeKey win32 d.worktree, d)) = id := rfl
  rw [this, List.map_id]

/-- Everything kept by the cap is at least as new as everything trimmed. -/
theorem sort_take_ge_drop (l : List CachedSessionDirectory) (n : Nat)
    (x y : CachedSessionDirectory)
    (hx : x ∈ (List.insertionSort lastUpdatedGE l).take n)
    (hy : y ∈ (List.insertionSort lastUpdatedGE l).drop n) :
    y.lastUpdated ≤ x.lastUpdated := by
  have hs := List.sorted_insertionSort lastUpdatedGE l
  rw [← List.take_append_drop n (List.insertionSort lastUpdatedGE l)] at hs
  exact (List.pairwise_append.mp hs).2.2 x hx y hy

/-- With distinct keys, a kept entry and a trimmed entry never share one. -/
theorem sort_take_drop_key_ne (win32 : Bool) (l : List CachedSessionDirectory) (n : Nat)
    (h : (dirKeys win32 l).Nodup) (x y : CachedSessionDirectory)
    (hx : x ∈ (List.insertionSort lastUpdatedGE l).take n)
    (hy : y ∈ (List.insertionSort lastUpdatedGE l).drop n) :
    keyOf win32 x ≠ keyOf win32 y := by
  have hnd : ((List.insertionSort lastUpdatedGE l).map (keyOf win32)).Nodup :=
    ((List.perm_insertionSort lastUpdatedGE l).map (keyOf win32)).symm.nodup h
  rw [← List.take_append_drop n (List.insertionSort lastUpdatedGE l),
    List.map_append] at hnd
  have hdisj := (List.nodup_append.mp hnd).2.2
  intro heq
  exact hdisj (List.mem_map_of_mem _ hx) (heq ▸ List.mem_map_of_mem _ hy)

/-- Sorting then splitting at the cap partitions the input list. -/
theorem sort_mem_take_or_drop (l : List CachedSessionDirectory) (n : Nat)
    (x : CachedSessionDirectory) (hx : x ∈ l) :
    x ∈ (List.insertionSort lastUpdatedGE l).take n ∨
      x ∈ (List.insertionSort lastUpdatedGE l).drop n := by
  have hmem : x ∈ List.insertionSort lastUpdatedGE l :=
    (List.mem_insertionSort lastUpdatedGE).mpr hx
  rw [← List.take_append_drop n (List.insertionSort lastUpdatedGE l)] at hmem
  exact List.mem_append.mp hmem

/-- Kept entries come from the input list. -/
theorem sort_take_subset (l : List CachedSessionDirectory) (n : Nat)
    (x : CachedSessionDirectory)
    (hx : x ∈ (List.insertionSort lastUpdatedGE l).take n) : x ∈ l :=
  (List.mem_insertionSort lastUpdatedGE).mp ((List.take_sublist _ _).mem hx)

/-- Trimmed entries come from the input list. -/
theorem sort_drop_subset (l : List CachedSessionDirectory) (n : Nat)
    (x : CachedSessionDirectory)
    (hx : x ∈ (List.insertionSort lastUpdatedGE l).drop n) : x ∈ l :=
  (List.mem_insertionSort lastUpdatedGE).mp ((List.drop_sublist _ _).mem hx)

/-- Length of the kept prefix. -/
theorem sort_take_length (l : List CachedSessionDirectory) (n : Nat) :
    ((List.insertionSort lastUpdatedGE l).take n).length = min n l.length := by
  rw [List.length_take, (List.perm_insertionSort lastUpdatedGE l).length_eq]

/-- When the input exceeds the cap, something is trimmed. -/
theorem sort_drop_ne_nil (l : List CachedSessionDirectory) (n : Nat)
    (h : n < l.length) :
    ∃ d, d ∈ (List.insertionSort lastUpdatedGE l).drop n := by
  have hlen : ((List.insertionSort lastUpdatedGE l).drop n).length = l.length - n := by
    rw [List.length_drop, (List.perm_insertionSort lastUpdatedGE l).length_eq]
  have hpos : 0 < ((List.insertionSort lastUpdatedGE l).drop n).length := by omega
  cases hd : (List.insertionSort lastUpdatedGE l).drop n with
  | nil => rw [hd] at hpos; cases hpos
  | cons d rest => exact ⟨d, List.mem_cons_self _ _⟩

/-- Keys of the parts of a split around one entry are distinct from its key
when the whole list has distinct keys. -/
theorem nodup_middle_keys (win32 : Bool) (l1 l2 : List CachedSessionDirectory)
    (e : CachedSessionDirectory) (h : (dirKeys win32 (l1 ++ e :: l2)).Nodup) :
    (∀ x ∈ l1, keyOf win32 x ≠ keyOf win32 e) ∧
      (∀ x ∈ l2, keyOf win32 x ≠ keyOf win32 e) := by
  rw [dirKeys, List.map_append, List.map_cons] at h
  obtain ⟨h1, h2, hdisj⟩ := List.nodup_append.mp h
  rw [List.nodup_cons] at h2
  constructor
  · intro x hx heq
    exact hdisj (List.mem_map_of_mem _ hx) (heq ▸ List.mem_cons_self _ _)
  · intro x hx heq
    exact h2.1 (heq ▸ List.mem_map_of_mem _ hx)

/-- Replacing the timestamp of the middle entry does not change the keys. -/
theorem dirKeys_middle_update (win32 : Bool) (l1 l2 : List CachedSessionDirectory)
    (e : CachedSessionDirectory) (t : Int) :
    dirKeys win32 (l1 ++ { worktree := e.worktree, lastUpdated := t } :: l2)
      = dirKeys win32 (l1 ++ e :: l2) := by
  simp [dirKeys, keyOf]

/-- With distinct keys, the key function is injective on the list. -/
theorem key_inj_of_nodup (win32 : Bool) (dirs : List CachedSessionDirectory)
    (h : (dirKeys win32 dirs).Nodup) {x : CachedSessionDirectory} (hx : x ∈ dirs)
    {y : CachedSessionDirectory} (hy : y ∈ dirs)
    (heq : keyOf win32 x = keyOf win32 y) : x = y :=
  List.inj_on_of_nodup_map h hx hy heq

/-- A stale upsert (existing entry at least as new) preserves the per-key
invariant: the submitted timestamp is recorded but dominated. -/
theorem keyInv_stale (win32 : Bool) (k : String) (ts : List Int) (t : Int)
    (dirs : List CachedSessionDirectory) (e : CachedSessionDirectory)
    (hN : NormalizedDirs win32 dirs) (hK : KeyInv win32 k ts dirs)
    (he : e ∈ dirs) (hge : t ≤ e.lastUpdated) :
    KeyInv win32 k (ts ++ (if keyOf win32 e == k then [t] else [])) dirs := by
  by_cases hkk : keyOf win32 e = k
  · rw [if_pos (beq_iff_eq.mpr hkk)]
    have hts : ts ≠ [] := by
      intro habs
      exact hK.1 habs e he hkk
    refine ⟨?_, ?_, ?_⟩
    · intro habs
      simp at habs
    · intro x hx hxk
      have hxe : x = e := key_inj_of_nodup win32 dirs hN.2.2 hx he (hxk.trans hkk.symm)
      subst hxe
      obtain ⟨hmem, hbound⟩ := hK.2.1 x hx hkk
      refine ⟨List.mem_append_left _ hmem, ?_⟩
      intro m hm
      rcases List.mem_append.mp hm with hmts | hmt
      · exact hbound m hmts
      · rw [List.mem_singleton] at hmt
        subst hmt
        exact hge
    · intro _ habs
      exact absurd hkk (habs e he)
  · rw [if_neg (fun hc => hkk (beq_iff_eq.mp hc)), List.append_nil]
    exact hK

/-- An in-place timestamp advance preserves the per-key invariant. -/
theorem keyInv_update_existing (win32 : Bool) (k : String) (ts : List Int) (t : Int)
    (l1 l2 : List CachedSessionDirectory) (e : CachedSessionDirectory)
    (hN : NormalizedDirs win32 (l1 ++ e :: l2))
    (hK : KeyInv win32 k ts (l1 ++ e :: l2)) (hlt : e.lastUpdated < t) :
    KeyInv win32 k (ts ++ (if keyOf win32 e == k then [t] else []))
      (dedupeAndTrimDirectories win32
        (l1 ++ { worktree := e.worktree, lastUpdated := t } :: l2)) := by
  obtain ⟨hlen, hsort, hkeys⟩ := hN
  have he : e ∈ l1 ++ e :: l2 := List.mem_append_right _ (List.mem_cons_self _ _)
  have hkeysl : (dirKeys win32
      (l1 ++ { worktree := e.worktree, lastUpdated := t } :: l2)).Nodup := by
    rw [dirKeys_middle_update]
    exact hkeys
  have hlenl : (l1 ++ { worktree := e.worktree, lastUpdated := t } :: l2).length
      = (l1 ++ e :: l2).length := by simp
  have hLeq : dedupeAndTrimDirectories win32
      (l1 ++ { worktree := e.worktree, lastUpdated := t } :: l2)
        = List.insertionSort lastUpdatedGE
          (l1 ++ { worktree := e.worktree, lastUpdated := t } :: l2) := by
    rw [dedupe_eq_sortTake win32 _ hkeysl]
    refine List.take_of_length_le ?_
    rw [(List.perm_insertionSort lastUpdatedGE _).length_eq, hlenl]
    exact hlen
  have hLperm : List.Perm
      (dedupeAndTrimDirectories win32
        (l1 ++ { worktree := e.worktree, lastUpdated := t } :: l2))
      (l1 ++ { worktree := e.worktree, lastUpdated := t } :: l2) := by
    rw [hLeq]
    exact List.perm_insertionSort lastUpdatedGE _
  have hmemL : ∀ x, x ∈ dedupeAndTrimDirectories win32
      (l1 ++ { worktree := e.worktree, lastUpdated := t } :: l2) ↔
        x ∈ l1 ++ { worktree := e.worktree, lastUpdated := t } :: l2 :=
    fun x => hLperm.mem_iff
  have hmid := nodup_middle_keys win32 l1 l2 e hkeys
  have hupdmem : ({ worktree := e.worktree, lastUpdated := t } : CachedSessionDirectory)
      ∈ l1 ++ { worktree := e.worktree, lastUpdated := t } :: l2 :=
    List.mem_append_right _ (List.mem_cons_self _ _)
  have hsplit : ∀ x, x ∈ l1 ++ { worktree := e.worktree, lastUpdated := t } :: l2 →
      x ∈ l1 ∨ x = { worktree := e.worktree, lastUpdated := t } ∨ x ∈ l2 := by
    intro x hx
    rcases List.mem_append.mp hx with h1 | h1
    · exact Or.inl h1
    · rcases List.mem_cons.mp h1 with h2 | h2
      · exact Or.inr (Or.inl h2)
      · exact Or.inr (Or.inr h2)
  have hdirsmem : ∀ x, x ∈ l1 ∨ x ∈ l2 → x ∈ l1 ++ e :: l2 := by
    intro x hx
    rcases hx with h1 | h1
    · exact List.mem_append_left _ h1
    · exact List.mem_append_right _ (List.mem_cons_of_mem _ h1)
  have hupdkey : keyOf win32 ({ worktree := e.worktree, lastUpdated := t } :
      CachedSessionDirectory) = keyOf win32 e := rfl
  by_cases hkk : keyOf win32 e = k
  · rw [if_pos (beq_iff_eq.mpr hkk)]
    have hts : ts ≠ [] := by
      intro habs
      exact hK.1 habs e he hkk
    refine ⟨?_, ?_, ?_⟩
    · intro habs
      simp at habs
    · intro x hx hxk
      rcases hsplit x ((hmemL x).mp hx) with h1 | h1 | h1
      · exact absurd (hxk.trans hkk.symm) (hmid.1 x h1)
      · subst h1
        refine ⟨List.mem_append_right _ (List.mem_singleton.mpr rfl), ?_⟩
        intro m hm
        rcases List.mem_append.mp hm with hmts | hmt
        · exact le_trans ((hK.2.1 e he hkk).2 m hmts) (le_of_lt hlt)
        · rw [List.mem_singleton] at hmt
          subst hmt
          exact le_refl _
      · exact absurd (hxk.trans hkk.symm) (hmid.2 x h1)
    · intro _ habs
      refine absurd (hupdkey.trans hkk) (habs _ ?_)
      exact (hmemL _).mpr hupdmem
  · rw [if_neg (fun hc => hkk (beq_iff_eq.mp hc)), List.append_nil]
    refine ⟨?_, ?_, ?_⟩
    · intro hts x hx
      rcases hsplit x ((hmemL x).mp hx) with h1 | h1 | h1
      · exact hK.1 hts x (hdirsmem x (Or.inl h1))
      · subst h1
        rw [hupdkey]
        exact hkk
      · exact hK.1 hts x (hdirsmem x (Or.inr h1))
    · intro x hx hxk
      rcases hsplit x ((hmemL x).mp hx) with h1 | h1 | h1
      · exact hK.2.1 x (hdirsmem x (Or.inl h1)) hxk
      · subst h1
        exact absurd (hupdkey.symm.trans hxk) hkk
      · exact hK.2.1 x (hdirsmem x (Or.inr h1)) hxk
    · intro hts habs
      have habs' : ∀ x ∈ l1 ++ e :: l2, keyOf win32 x ≠ k := by
        intro x hx
        rcases List.mem_append.mp hx with h1 | h1
        · exact habs x ((hmemL x).mpr (List.mem_append_left _ h1))
        · rcases List.mem_cons.mp h1 with h2 | h2
          · subst h2
            exact hkk
          · exact habs x ((hmemL x).mpr
              (List.mem_append_right _ (List.mem_cons_of_mem _ h2)))
      obtain ⟨hlen10, hbound⟩ := hK.2.2 hts habs'
      refine ⟨by rw [hLperm.length_eq, hlenl]; exact hlen10, ?_⟩
      intro x hx m hm
      rcases hsplit x ((hmemL x).mp hx) with h1 | h1 | h1
      · exact hbound x (hdirsmem x (Or.inl h1)) m hm
      · subst h1
        exact le_trans (hbound e he m hm) (le_of_lt hlt)
      · exact hbound x (hdirsmem x (Or.inr h1)) m hm

/-- Inserting an entry with a fresh key preserves the per-key invariant:
the new entry either survives with its submitted timestamp or is evicted
by the cap, in which case everything kept dominates it. -/
theorem keyInv_insert_new (win32 : Bool) (k : String) (ts : List Int) (t : Int)
    (dirs : List CachedSessionDirectory) (new : CachedSessionDirectory)
    (hN : NormalizedDirs win32 dirs) (hK : KeyInv win32 k ts dirs)
    (hnok : ∀ e ∈ dirs, keyOf win32 e ≠ keyOf win32 new)
    (hlu : new.lastUpdated = t) :
    KeyInv win32 k (ts ++ (if keyOf win32 new == k then [t] else []))
      (dedupeAndTrimDirectories win32 (dirs ++ [new])) := by
  obtain ⟨hlen, hsort, hkeys⟩ := hN
  have hkeysnew : (dirKeys win32 (dirs ++ [new])).Nodup := by
    rw [dirKeys, List.map_append]
    refine List.nodup_append.mpr ⟨hkeys, List.nodup_singleton _, ?_⟩
    intro a ha hb
    rw [List.map_singleton, List.mem_singleton] at hb
    subst hb
    obtain ⟨x, hx, hxa⟩ := List.mem_map.mp ha
    exact hnok x hx hxa
  have hded : dedupeAndTrimDirectories win32 (dirs ++ [new])
      = (List.insertionSort lastUpdatedGE (dirs ++ [new])).take MAX_CACHED_DIRECTORIES :=
    dedupe_eq_sortTake win32 _ hkeysnew
  have hmemL : ∀ x, x ∈ dedupeAndTrimDirectories win32 (dirs ++ [new]) →
      x ∈ dirs ∨ x = new := by
    intro x hx
    rcases List.mem_append.mp (dedupe_mem_subset win32 _ x hx) with h1 | h1
    · exact Or.inl h1
    · exact Or.inr (List.mem_singleton.mp h1)
  have hnewmem : new ∈ dirs ++ [new] :=
    List.mem_append_right _ (List.mem_singleton.mpr rfl)
  by_cases hkk : keyOf win32 new = k
  · rw [if_pos (beq_iff_eq.mpr hkk)]
    have habsent : ∀ e ∈ dirs, keyOf win32 e ≠ k :=
      fun e he hek => hnok e he (hek.trans hkk.symm)
    refine ⟨?_, ?_, ?_⟩
    · intro habs
      simp at habs
    · intro x hx hxk
      rcases hmemL x hx with hxd | rfl
      · exact absurd hxk (habsent x hxd)
      · refine ⟨by rw [hlu]; exact List.mem_append_right _ (List.mem_singleton.mpr rfl),
          ?_⟩
        intro m hm
        rcases List.mem_append.mp hm with hmts | hmt
        · have hts : ts ≠ [] := by intro h; rw [h] at hmts; cases hmts
          obtain ⟨hlen10, hbound⟩ := hK.2.2 hts habsent
          have hxkept : x ∈ (List.insertionSort lastUpdatedGE (dirs ++ [x])).take
              MAX_CACHED_DIRECTORIES := by rw [← hded]; exact hx
          obtain ⟨d, hd⟩ := sort_drop_ne_nil (dirs ++ [x]) MAX_CACHED_DIRECTORIES
            (by rw [List.length_append, List.length_singleton]; omega)
          have hdne := sort_take_drop_key_ne win32 _ _ hkeysnew _ _ hxkept hd
          rcases List.mem_append.mp (sort_drop_subset _ _ _ hd) with hdd | hdn
          · exact le_trans (hbound d hdd m hmts) (sort_take_ge_drop _ _ _ _ hxkept hd)
          · rw [List.mem_singleton] at hdn
            subst hdn
            exact absurd rfl hdne
        · rw [List.mem_singleton] at hmt
          subst hmt
          rw [hlu]
    · intro _ habs
      have hnewL : new ∉ dedupeAndTrimDirectories win32 (dirs ++ [new]) :=
        fun h => habs new h hkk
      have hnd : new ∈ (List.insertionSort lastUpdatedGE (dirs ++ [new])).drop
          MAX_CACHED_DIRECTORIES := by
        rcases sort_mem_take_or_drop _ MAX_CACHED_DIRECTORIES _ hnewmem with h | h
        · exact absurd (by rw [hded]; exact h) hnewL
        · exact h
      have hlen10 : dirs.length = MAX_CACHED_DIRECTORIES := by
        have h1 := List.length_pos_of_mem hnd
        rw [List.length_drop, (List.perm_insertionSort lastUpdatedGE _).length_eq,
          List.length_append, List.length_singleton] at h1
        omega
      refine ⟨?_, ?_⟩
      · rw [hded, sort_take_length, List.length_append, List.length_singleton, hlen10]
        omega
      · intro x hxL m hm
        have hxkept : x ∈ (List.insertionSort lastUpdatedGE (dirs ++ [new])).take
            MAX_CACHED_DIRECTORIES := by rw [← hded]; exact hxL
        rcases hmemL x hxL with hxd | rfl
        · rcases List.mem_append.mp hm with hmts | hmt
          · have hts : ts ≠ [] := by intro h; rw [h] at hmts; cases hmts
            obtain ⟨_, hbound⟩ := hK.2.2 hts habsent
            exact hbound x hxd m hmts
          · rw [List.mem_singleton] at hmt
            subst hmt
            rw [← hlu]
            exact sort_take_ge_drop _ _ _ _ hxkept hnd
        · exact absurd hxL hnewL
  · rw [if_neg (fun hc => hkk (beq_iff_eq.mp hc)), List.append_nil]
    refine ⟨?_, ?_, ?_⟩
    · intro hts x hx
      rcases hmemL x hx with hxd | rfl
      · exact hK.1 hts x hxd
      · exact hkk
    · intro x hx hxk
      rcases hmemL x hx with hxd | rfl
      · exact hK.2.1 x hxd hxk
      · exact absurd hxk hkk
    · intro hts habs
      by_cases hpres : ∀ e ∈ dirs, keyOf win32 e ≠ k
      · obtain ⟨hlen10, hbound⟩ := hK.2.2 hts hpres
        refine ⟨?_, ?_⟩
        · rw [hded, sort_take_length, List.length_append, List.length_singleton, hlen10]
          omega
        · intro x hxL m hm
          have hxkept : x ∈ (List.insertionSort lastUpdatedGE (dirs ++ [new])).take
              MAX_CACHED_DIRECTORIES := by rw [← hded]; exact hxL
          rcases hmemL x hxL with hxd | rfl
          · exact hbound x hxd m hm
          · obtain ⟨d, hd⟩ := sort_drop_ne_nil (dirs ++ [x]) MAX_CACHED_DIRECTORIES
              (by rw [List.length_append, List.length_singleton]; omega)
            have hdne := sort_take_drop_key_ne win32 _ _ hkeysnew _ _ hxkept hd
            rcases List.mem_append.mp (sort_drop_subset _ _ _ hd) with hdd | hdn
            · exact le_trans (hbound d hdd m hm) (sort_take_ge_drop _ _ _ _ hxkept hd)
            · rw [List.mem_singleton] at hdn
              subst hdn
              exact absurd rfl hdne
      · push_neg at hpres
        obtain ⟨ek, hekd, hekk⟩ := hpres
        have hekmem : ek ∈ dirs ++ [new] := List.mem_append_left _ hekd
        have hekdrop : ek ∈ (List.insertionSort lastUpdatedGE (dirs ++ [new])).drop
            MAX_CACHED_DIRECTORIES := by
          rcases sort_mem_take_or_drop _ MAX_CACHED_DIRECTORIES _ hekmem with h | h
          · exact absurd hekk (habs ek (by rw [hded]; exact h))
          · exact h
        have hlen10 : dirs.length = MAX_CACHED_DIRECTORIES := by
          have h1 := List.length_pos_of_mem hekdrop
          rw [List.length_drop, (List.perm_insertionSort lastUpdatedGE _).length_eq,
            List.length_append, List.length_singleton] at h1
          omega
        refine ⟨?_, ?_⟩
        · rw [hded, sort_take_length, List.length_append, List.length_singleton, hlen10]
          omega
        · intro x hxL m hm
          have hxkept : x ∈ (List.insertionSort lastUpdatedGE (dirs ++ [new])).take
              MAX_CACHED_DIRECTORIES := by rw [← hded]; exact hxL
          exact le_trans ((hK.2.1 ek hekd hekk).2 m hm)
            (sort_take_ge_drop _ _ _ _ hxkept hekdrop)

/-- One `upsertDirectory` call preserves the per-key invariant, extending
the submitted-timestamp list exactly when the call targets the key with a
valid worktree. -/
theorem keyInv_step (win32 : Bool) (k : String) (ts : List Int) (w : String) (t : Int)
    (dirs : List CachedSessionDirectory)
    (hN : NormalizedDirs win32 dirs) (hK : KeyInv win32 k ts dirs) :
    KeyInv win32 k
      (ts ++ (if isValidWorktree w && (worktreeKey win32 (jsTrim w) == k) then [t]
        else []))
      (upsertDirectory win32 w t dirs).2 := by
  by_cases hv : isValidWorktree w
  · have hcond : (isValidWorktree w && (worktreeKey win32 (jsTrim w) == k))
        = (worktreeKey win32 (jsTrim w) == k) := by rw [hv, Bool.true_and]
    rw [hcond]
    cases hu : updateExistingDirectory win32 (worktreeKey win32 (jsTrim w)) t dirs with
    | none =>
      rw [upsertDirectory_new win32 w t dirs hv hu]
      have hnok : ∀ e ∈ dirs,
          keyOf win32 e ≠ keyOf win32 { worktree := jsTrim w, lastUpdated := t } :=
        fun e he => (update_none_iff win32 _ t dirs).mp hu e he
      exact keyInv_insert_new win32 k ts t dirs
        { worktree := jsTrim w, lastUpdated := t } hN hK hnok rfl
    | some pr =>
      obtain ⟨b, l⟩ := pr
      cases b
      · rw [upsertDirectory_stale win32 w t dirs l hv hu]
        obtain ⟨-, e, he, hek, hge⟩ := update_some_false_eq win32 _ t dirs l hu
        have hkw : worktreeKey win32 (jsTrim w) = keyOf win32 e := hek.symm
        rw [hkw]
        exact keyInv_stale win32 k ts t dirs e hN hK he hge
      · rw [upsertDirectory_advance win32 w t dirs l hv hu]
        obtain ⟨l1, e, l2, hdirs, hek, hlt, hleq⟩ := update_some_true_eq win32 _ t dirs l hu
        have hkw : worktreeKey win32 (jsTrim w) = keyOf win32 e := hek.symm
        rw [hkw, hleq]
        exact keyInv_update_existing win32 k ts t l1 l2 e (hdirs ▸ hN) (hdirs ▸ hK) hlt
  · have hv' : isValidWorktree w = false := by
      cases hvv : isValidWorktree w
      · rfl
      · exact absurd hvv hv
    rw [upsertDirectory_invalid win32 w t dirs hv', hv', Bool.false_and]
    show KeyInv win32 k (ts ++ []) dirs
    rw [List.append_nil]
    exact hK

/-- The submitted timestamps for a key split off the last operation. -/
theorem upsertTimestampsFor_append (win32 : Bool) (k : String)
    (ops : List (String × Int)) (op : String × Int) :
    upsertTimestampsFor win32 k (ops ++ [op]) =
      upsertTimestampsFor win32 k ops ++
        (if isValidWorktree op.1 && (worktreeKey win32 (jsTrim op.1) == k) then [op.2]
         else []) := by
  unfold upsertTimestampsFor
  rw [List.filter_append, List.map_append]
  congr 1
  by_cases h : (isValidWorktree op.1 && (worktreeKey win32 (jsTrim op.1) == k)) = true
  · simp [List.filter, h]
  · simp only [Bool.not_eq_true] at h
    simp [List.filter, h]

/-- Splitting the last operation off a sequence of upserts. -/
theorem applyUpserts_append (win32 : Bool) (ops : List (String × Int))
    (op : String × Int) (dirs : List CachedSessionDirectory) :
    applyUpserts win32 (ops ++ [op]) dirs =
      (upsertDirectory win32 op.1 op.2 (applyUpserts win32 ops dirs)).2 := by
  unfold applyUpserts
  rw [List.foldl_append]
  rfl

/-- Any sequence of upserts from the empty list maintains both the normal
form and the per-key invariant. -/
theorem keyInv_applyUpserts (win32 : Bool) (k : String) (ops : List (String × Int)) :
    NormalizedDirs win32 (applyUpserts win32 ops []) ∧
      KeyInv win32 k (upsertTimestampsFor win32 k ops) (applyUpserts win32 ops []) := by
  induction ops using List.reverseRecOn with
  | nil =>
    refine ⟨⟨by simp [applyUpserts, MAX_CACHED_DIRECTORIES], ?_, ?_⟩, ?_, ?_, ?_⟩
    · show List.Sorted lastUpdatedGE []
      exact List.sorted_nil
    · show (dirKeys win32 []).Nodup
      exact List.nodup_nil
    · intro _ e he
      cases he
    · intro e he
      cases he
    · intro hts _
      exact absurd rfl hts
  | append_singleton ops op ih =>
    rw [applyUpserts_append, upsertTimestampsFor_append]
    exact ⟨upsertDirectory_normalized win32 op.1 op.2 _ ih.1,
      keyInv_step win32 k _ op.1 op.2 _ ih.1 ih.2⟩

/-- **C6**: for every finite sequence of upserts (starting from the empty,
freshly-normalized cache) and every identity key, any entry still cached
under that key stores exactly the maximum of all timestamps ever submitted
for it; moreover an upsert whose timestamp is at most the stored value of
an existing entry for its key is a complete no-op. -/
theorem upsert_per_key_max (win32 : Bool) (ops : List (String × Int)) (k : String)
    (e : CachedSessionDirectory) (he : e ∈ applyUpserts win32 ops [])
    (hk : keyOf win32 e = k) :
    (e.lastUpdated ∈ upsertTimestampsFor win32 k ops ∧
      ∀ m ∈ upsertTimestampsFor win32 k ops, m ≤ e.lastUpdated) ∧
      ∀ (dirs : List CachedSessionDirectory) (w : String) (t : Int),
        (dirKeys win32 dirs).Nodup →
        (∃ e2 ∈ dirs, keyOf win32 e2 = worktreeKey win32 (jsTrim w) ∧
          t ≤ e2.lastUpdated) →
        upsertDirectory win32 w t dirs = (false, dirs) := by
  constructor
  · exact (keyInv_applyUpserts win32 k ops).2.2.1 e he hk
  · rintro dirs w t hnd ⟨e2, he2, hke2, hle⟩
    by_cases hv : isValidWorktree w
    · cases hu : updateExistingDirectory win32 (worktreeKey win32 (jsTrim w)) t dirs with
      | none =>
        exact absurd hke2 ((update_none_iff win32 _ t dirs).mp hu e2 he2)
      | some pr =>
        obtain ⟨b, l⟩ := pr
        cases b
        · exact upsertDirectory_stale win32 w t dirs l hv hu
        · obtain ⟨l1, e3, l2, hdirs, hek3, hlt3, -⟩ :=
            update_some_true_eq win32 _ t dirs l hu
          have he3 : e3 ∈ dirs := by
            rw [hdirs]
            exact List.mem_append_right _ (List.mem_cons_self _ _)
          have heq : e2 = e3 :=
            key_inj_of_nodup win32 dirs hnd he2 he3 (hke2.trans hek3.symm)
          subst heq
          exact absurd hlt3 (not_lt.mpr hle)
    · refine upsertDirectory_invalid win32 w t dirs ?_
      cases hvv : isValidWorktree w
      · rfl
      · exact absurd hvv hv

/-- Closed witness for `upsert_per_key_max`. -/
theorem upsert_per_key_max_witness :
    ((9 : Int) ∈ upsertTimestampsFor false "/a" [("/a", 5), ("/a", 9)] ∧
      ∀ m ∈ upsertTimestampsFor false "/a" [("/a", 5), ("/a", 9)], m ≤ (9 : Int)) ∧
      upsertDirectory false "/a" 4 [{ worktree := "/a", lastUpdated := 5 }]
        = (false, [{ worktree := "/a", lastUpdated := 5 }]) := by
  have h := upsert_per_key_max false [("/a", 5), ("/a", 9)] "/a"
    { worktree := "/a", lastUpdated := 9 } (by decide) (by decide)
  exact ⟨h.1, h.2 [{ worktree := "/a", lastUpdated := 5 }] "/a" 4 (by decide)
    ⟨{ worktree := "/a", lastUpdated := 5 }, by decide, by decide, by decide⟩⟩
